import Mathlib

/-!
An embedding of `kola::hashtable`, `src/kola/hashtable.h`.

A chain is the list of nodes met by following `next` from a bucket head, so
`buckets_ : std::vector<node*>` becomes a list of chains.  Every node carries the
address it was allocated at: iterators hold a `node*` and compare by it.
`size_type` values are natural numbers (a count of live nodes cannot wrap).
-/

namespace kola

/-- The struct `node` (lines 130-133): `val`, met at address `addr`; the `next`
field is the rest of the chain the node sits in. -/
structure node (V : Type) where
  addr : Nat
  val : V
deriving DecidableEq

/-- The template parameters `Hash`, `Equal`, `ExtractKey` of the class, and
`detail::next_prime` (declared on line 10, defined nowhere in the repository). -/
structure policy (K V : Type) where
  hash : K → Nat
  key_equal : K → K → Bool
  extract_key : V → K
  next_prime : Nat → Nat

/-- The data members `buckets_` and `num_elements_` (lines 135-136). -/
structure hashtable (V : Type) where
  buckets_ : List (List (node V))
  num_elements_ : Nat
deriving DecidableEq

/-- The node allocator: `fresh` is the next unused address, `quota` the number of
`new_node` calls that succeed before one throws. -/
structure allocator where
  fresh : Nat
  quota : Nat
deriving DecidableEq

/-- How a call ends: it returns `a` leaving state `s`; or an exception leaves the
function with state `s`; or the run reaches an operation without meaning
(a modulo by zero, a null dereference, the subscript of line 177). -/
inductive result (σ α : Type) where
  | ok (s : σ) (a : α)
  | throws (s : σ)
  | undefined
deriving DecidableEq

/-- The value a call returned, if it returned. -/
def result.value {σ α : Type} : result σ α → Option α
  | result.ok _ a => some a
  | result.throws _ => none
  | result.undefined => none

/-- An iterator is its `cur_` pointer: the address of a node, or null (end). -/
abbrev iterator := Option Nat

variable {K V : Type}

/-- Accessor `size()` (line 61). -/
def hashtable.size (t : hashtable V) : Nat := t.num_elements_

/-- Accessor `bucket_count()` (line 63). -/
def hashtable.bucket_count (t : hashtable V) : Nat := t.buckets_.length

/-- Member `next_size` (line 88). -/
def next_size (P : policy K V) (n : Nat) : Nat := P.next_prime n

/-- Member `initialize_buckets` (lines 90-95), on a table with no bucket yet. -/
def initialize_buckets (P : policy K V) (n : Nat) : hashtable V :=
  { buckets_ := List.replicate (next_size P n) [], num_elements_ := 0 }

/-- Member `bkt_num_key(key, n)` (lines 109-111): `hash(key) % n`, without meaning
for `n == 0`. -/
def bkt_num_key (P : policy K V) (key : K) (n : Nat) : Option Nat :=
  if n = 0 then none else some (P.hash key % n)

/-- Member `bkt_num(obj, n)` (lines 97-99). -/
def bkt_num (P : policy K V) (obj : V) (n : Nat) : Option Nat :=
  bkt_num_key P (P.extract_key obj) n

/-- Member `new_node` (lines 113-123): a node at a fresh address holding a copy of
`obj`, or `none` when allocation or construction throws. -/
def new_node (a : allocator) (obj : V) : Option (allocator × node V) :=
  if a.quota = 0 then none
  else some ({ fresh := a.fresh + 1, quota := a.quota - 1 }, { addr := a.fresh, val := obj })

/-- The loop of `find` (lines 144-145): the first node of the chain whose key
equals `key`, or null. -/
def find_in_chain (P : policy K V) (key : K) : List (node V) → Option (node V)
  | [] => none
  | cur :: rest =>
    if P.key_equal (P.extract_key cur.val) key then some cur
    else find_in_chain P key rest

/-- Member `find` (lines 139-147). -/
def find (P : policy K V) (t : hashtable V) (key : K) : result (hashtable V) iterator :=
  match bkt_num_key P key t.buckets_.length with
  | none => result.undefined
  | some bucket =>
    result.ok t ((find_in_chain P key (t.buckets_.getD bucket [])).map node.addr)

/-- The loop of `count` (lines 154-157). -/
def count_in_chain (P : policy K V) (key : K) : List (node V) → Nat
  | [] => 0
  | cur :: rest =>
    if P.key_equal (P.extract_key cur.val) key then count_in_chain P key rest + 1
    else count_in_chain P key rest

/-- Member `count` (lines 149-159). -/
def count (P : policy K V) (t : hashtable V) (key : K) : result (hashtable V) Nat :=
  match bkt_num_key P key t.buckets_.length with
  | none => result.undefined
  | some bucket => result.ok t (count_in_chain P key (t.buckets_.getD bucket []))

/-- The rehash loop of `resize` (lines 173-182), over the old buckets in index
order.  A bucket whose head is null is passed over (the `while (first)` body is not
entered).  For a bucket with a node the body runs to line 177,
`buckets_[buckets_] = first->next;`, whose subscript is the bucket vector itself
and not the loop index `bucket`: the statement names no slot of `buckets_`, the
head of `buckets_[bucket]` that line 180 reads again is never unlinked, and the run
has no meaning from there on (`none`). -/
def rehash_loop : List (List (node V)) → Option Unit
  | [] => some ()
  | [] :: rest => rehash_loop rest
  | (_ :: _) :: _ => none

/-- Member `resize` (lines 161-185). -/
def resize (P : policy K V) (t : hashtable V) (num_elements_hint : Nat) :
    result (hashtable V) Unit :=
  let old_num := t.buckets_.length
  if num_elements_hint ≤ old_num then result.ok t ()
  else
    let n := next_size P num_elements_hint
    if n ≤ old_num then result.ok t ()
    else
      match rehash_loop t.buckets_ with
      | none => result.undefined
      | some _ =>
        result.ok { buckets_ := List.replicate n [], num_elements_ := t.num_elements_ } ()

/-- Member `insert_unique_noresize` (lines 187-203); the scan of lines 193-196 is
the scan of `find` with the key of `obj`. -/
def insert_unique_noresize (P : policy K V) (a : allocator) (t : hashtable V) (obj : V) :
    result (allocator × hashtable V) (iterator × Bool) :=
  match bkt_num P obj t.buckets_.length with
  | none => result.undefined
  | some bucket =>
    let first := t.buckets_.getD bucket []
    match find_in_chain P (P.extract_key obj) first with
    | some cur => result.ok (a, t) (some cur.addr, false)
    | none =>
      match new_node a obj with
      | none => result.throws (a, t)
      | some (a', tmp) =>
        result.ok (a', { buckets_ := t.buckets_.set bucket (tmp :: first),
                         num_elements_ := t.num_elements_ + 1 }) (some tmp.addr, true)

/-- Lines 214-215 at the first node `cur` of the chain whose key equals the key of
`obj`: `tmp->next = cur->next; cur->next = tmp`. -/
def link_after (P : policy K V) (obj : V) (tmp : node V) : List (node V) → List (node V)
  | [] => []
  | cur :: rest =>
    if P.key_equal (P.extract_key cur.val) (P.extract_key obj) then cur :: tmp :: rest
    else cur :: link_after P obj tmp rest

/-- Member `insert_equal_noresize` (lines 205-226). -/
def insert_equal_noresize (P : policy K V) (a : allocator) (t : hashtable V) (obj : V) :
    result (allocator × hashtable V) iterator :=
  match bkt_num P obj t.buckets_.length with
  | none => result.undefined
  | some bucket =>
    let first := t.buckets_.getD bucket []
    match find_in_chain P (P.extract_key obj) first with
    | some _ =>
      match new_node a obj with
      | none => result.throws (a, t)
      | some (a', tmp) =>
        result.ok (a', { buckets_ := t.buckets_.set bucket (link_after P obj tmp first),
                         num_elements_ := t.num_elements_ + 1 }) (some tmp.addr)
    | none =>
      match new_node a obj with
      | none => result.throws (a, t)
      | some (a', tmp) =>
        result.ok (a', { buckets_ := t.buckets_.set bucket (tmp :: first),
                         num_elements_ := t.num_elements_ + 1 }) (some tmp.addr)

/-- Member `insert_unique` (lines 69-72). -/
def insert_unique (P : policy K V) (a : allocator) (t : hashtable V) (obj : V) :
    result (allocator × hashtable V) (iterator × Bool) :=
  match resize P t (t.num_elements_ + 1) with
  | result.ok t' _ => insert_unique_noresize P a t' obj
  | result.throws t' => result.throws (a, t')
  | result.undefined => result.undefined

/-- Member `insert_equal` (lines 76-79). -/
def insert_equal (P : policy K V) (a : allocator) (t : hashtable V) (obj : V) :
    result (allocator × hashtable V) iterator :=
  match resize P t (t.num_elements_ + 1) with
  | result.ok t' _ => insert_equal_noresize P a t' obj
  | result.throws t' => result.throws (a, t')
  | result.undefined => result.undefined

/-- Member `clear` (lines 249-262): every chain is deleted and its head reset, the
vector keeps its length. -/
def clear (t : hashtable V) : hashtable V :=
  { buckets_ := t.buckets_.map (fun _ => []), num_elements_ := 0 }

/-- The inner loop of `copy_from` (lines 271-278) on one source chain: the nodes
built, in order, and whether every `new_node` returned. -/
def copy_chain (a : allocator) : List (node V) → allocator × List (node V) × Bool
  | [] => (a, [], true)
  | cur :: rest =>
    match new_node a cur.val with
    | none => (a, [], false)
    | some (a', copy) =>
      match copy_chain a' rest with
      | (a'', more, done) => (a'', copy :: more, done)

/-- The outer loop of `copy_from` (line 270): buckets after the one where
`new_node` threw keep the null head of line 268. -/
def copy_buckets (a : allocator) :
    List (List (node V)) → allocator × List (List (node V)) × Bool
  | [] => (a, [], true)
  | chain :: rest =>
    match copy_chain a chain with
    | (a', copy, true) =>
      match copy_buckets a' rest with
      | (a'', more, done) => (a'', copy :: more, done)
    | (a', copy, false) => (a', copy :: rest.map (fun _ => []), false)

/-- Member `copy_from`, lines 267-288: what the call does once line 266 has emptied
`buckets_` of the destination `self`, with `ht` the source as these lines read it.
For a source that is another object than the destination, `ht` is the source as it
was passed; for the call `t.copy_from(t)` see `copy_from_at`. -/
def copy_from (a : allocator) (self ht : hashtable V) :
    result (allocator × hashtable V) Unit :=
  match copy_buckets a ht.buckets_ with
  | (a', buckets, true) =>
    result.ok (a', { buckets_ := buckets, num_elements_ := ht.num_elements_ }) ()
  | (a', buckets, false) =>
    result.throws (a', clear { buckets_ := buckets, num_elements_ := self.num_elements_ })

/-- Member `copy_from` (lines 264-288) as a call `tables[dst].copy_from(tables[src])`
on the table objects of a program; `dst == src` is the call `t.copy_from(t)`, which no
line guards against.  Line 266 empties `buckets_` of the destination (its nodes are
not deleted); lines 267-282 then read the source, which is the emptied destination
when the two are one object.  No other object is written. -/
def copy_from_at (a : allocator) (tables : List (hashtable V)) (dst src : Nat) :
    result (allocator × List (hashtable V)) Unit :=
  match tables[dst]? with
  | none => result.undefined
  | some self =>
    let emptied := tables.set dst { buckets_ := [], num_elements_ := self.num_elements_ }
    match emptied[src]? with
    | none => result.undefined
    | some ht =>
      match copy_from a self ht with
      | result.ok (a', t') _ => result.ok (a', emptied.set dst t') ()
      | result.throws (a', t') => result.throws (a', emptied.set dst t')
      | result.undefined => result.undefined

/-- What `cur_` points at: the node at address `p` of a chain together with the
nodes its `next` leads to. -/
def chain_at (p : Nat) : List (node V) → Option (List (node V))
  | [] => none
  | x :: rest => if x.addr = p then some (x :: rest) else chain_at p rest

/-- The node at address `p` of the table and the rest of its chain. -/
def node_at (p : Nat) : List (List (node V)) → Option (List (node V))
  | [] => none
  | chain :: rest =>
    match chain_at p chain with
    | some l => some l
    | none => node_at p rest

/-- The head of the first bucket of the list that is not null. -/
def first_head : List (List (node V)) → Option (node V)
  | [] => none
  | [] :: rest => first_head rest
  | (x :: _) :: _ => some x

/-- Member `iterator::operator++` (lines 228-239); `none` when `cur_` is null or
points at no node of the table. -/
def increment (P : policy K V) (t : hashtable V) (it : iterator) : Option iterator :=
  match it with
  | none => none
  | some p =>
    match node_at p t.buckets_ with
    | none => none
    | some [] => none
    | some (_ :: nxt :: _) => some (some nxt.addr)
    | some [old] =>
      match bkt_num P old.val t.buckets_.length with
      | none => none
      | some bucket => some ((first_head (t.buckets_.drop (bucket + 1))).map node.addr)

/-- The iterator at the first node of the first non-empty bucket (end when the
table holds no node). -/
def first_node (t : hashtable V) : iterator :=
  (first_head t.buckets_).map node.addr

/-- The iterator after `k` applications of `operator++`. -/
def advance (P : policy K V) (t : hashtable V) : Nat → iterator → Option iterator
  | 0, it => some it
  | k + 1, it =>
    match increment P t it with
    | none => none
    | some it' => advance P t k it'

/-- Every node of the table, bucket by bucket, each chain from its head. -/
def all_nodes (t : hashtable V) : List (node V) := t.buckets_.flatten

/-- Invariant: `num_elements_` is the sum of the chain lengths. -/
def counted (t : hashtable V) : Prop :=
  t.num_elements_ = (t.buckets_.map List.length).sum

/-- Invariant: every node lies in the bucket `hash(key) % bucket_count`. -/
def chains_placed (P : policy K V) (t : hashtable V) : Prop :=
  ∀ i : Fin t.buckets_.length, ∀ x ∈ t.buckets_.get i,
    P.hash (P.extract_key x.val) % t.buckets_.length = i.val

/-- Invariant: no two nodes of the table share an address. -/
def distinct_nodes (t : hashtable V) : Prop :=
  ((all_nodes t).map node.addr).Nodup

/-- A well-formed table. -/
def well_formed (P : policy K V) (t : hashtable V) : Prop :=
  chains_placed P t ∧ counted t ∧ distinct_nodes t

/-- Every node of the table was handed out by the allocator: its address is below
the next unused one. -/
def heap_ok (a : allocator) (t : hashtable V) : Prop :=
  ∀ x ∈ all_nodes t, x.addr < a.fresh

instance (t : hashtable V) : Decidable (counted t) := by
  unfold counted; infer_instance

instance (P : policy K V) (t : hashtable V) : Decidable (chains_placed P t) := by
  unfold chains_placed; infer_instance

instance (t : hashtable V) : Decidable (distinct_nodes t) := by
  unfold distinct_nodes; infer_instance

instance (P : policy K V) (t : hashtable V) : Decidable (well_formed P t) := by
  unfold well_formed; infer_instance

/-- The assumption on `Equal` and `Hash`: `key_equal` is an equivalence relation and
equal keys have equal hashes. -/
structure lawful (P : policy K V) : Prop where
  refl : ∀ k, P.key_equal k k = true
  symm : ∀ k l, P.key_equal k l = true → P.key_equal l k = true
  trans : ∀ k l m, P.key_equal k l = true → P.key_equal l m = true → P.key_equal k m = true
  hash_eq : ∀ k l, P.key_equal k l = true → P.hash k = P.hash l

/-- The default-constructed table: no bucket, no element. -/
def empty_table : hashtable V := { buckets_ := [], num_elements_ := 0 }

/-- Tables reachable from an empty table by calls that return; the source of a
`copy_from` is another table, itself reachable. -/
inductive reachable (P : policy K V) : hashtable V → Prop where
  | empty : reachable P empty_table
  | init (n : Nat) : reachable P (initialize_buckets P n)
  | insert_unique {t t' : hashtable V} (a a' : allocator) (obj : V) (r : iterator × Bool) :
      reachable P t → insert_unique P a t obj = result.ok (a', t') r → reachable P t'
  | insert_equal {t t' : hashtable V} (a a' : allocator) (obj : V) (r : iterator) :
      reachable P t → insert_equal P a t obj = result.ok (a', t') r → reachable P t'
  | resize {t t' : hashtable V} (hint : Nat) :
      reachable P t → resize P t hint = result.ok t' () → reachable P t'
  | clear {t : hashtable V} : reachable P t → reachable P (clear t)
  | copy_from {t src t' : hashtable V} (a a' : allocator) :
      reachable P t → reachable P src →
      copy_from a t src = result.ok (a', t') () → reachable P t'

/-- Tables reachable from an empty table by calls of `insert_unique`, `resize` and
`clear` that return. -/
inductive reachable_unique (P : policy K V) : hashtable V → Prop where
  | empty : reachable_unique P empty_table
  | insert_unique {t t' : hashtable V} (a a' : allocator) (obj : V) (r : iterator × Bool) :
      reachable_unique P t → insert_unique P a t obj = result.ok (a', t') r →
      reachable_unique P t'
  | resize {t t' : hashtable V} (hint : Nat) :
      reachable_unique P t → resize P t hint = result.ok t' () → reachable_unique P t'
  | clear {t : hashtable V} : reachable_unique P t → reachable_unique P (clear t)

/-- Tables reachable from an empty table by calls of `insert_equal` and `resize`
that return. -/
inductive reachable_equal (P : policy K V) : hashtable V → Prop where
  | empty : reachable_equal P empty_table
  | insert_equal {t t' : hashtable V} (a a' : allocator) (obj : V) (r : iterator) :
      reachable_equal P t → insert_equal P a t obj = result.ok (a', t') r →
      reachable_equal P t'
  | resize {t t' : hashtable V} (hint : Nat) :
      reachable_equal P t → resize P t hint = result.ok t' () → reachable_equal P t'

/-- No two nodes of the table have equal keys. -/
def unique_keys (P : policy K V) (t : hashtable V) : Prop :=
  (all_nodes t).Pairwise
    (fun x y => P.key_equal (P.extract_key x.val) (P.extract_key y.val) = false)

/-- In the chain, the nodes whose key equals that of a node follow it directly: past
the run of equal keys after each node no further node has an equal key. -/
def grouped (P : policy K V) : List (node V) → Prop
  | [] => True
  | x :: rest =>
    (∀ y ∈ rest.dropWhile (fun z => P.key_equal (P.extract_key x.val) (P.extract_key z.val)),
      P.key_equal (P.extract_key x.val) (P.extract_key y.val) = false) ∧ grouped P rest

instance (P : policy K V) (t : hashtable V) : Decidable (unique_keys P t) := by
  unfold unique_keys; infer_instance

/-- Whether a chain is grouped can be computed. -/
def grouped_decidable (P : policy K V) : (l : List (node V)) → Decidable (grouped P l)
  | [] => isTrue True.intro
  | x :: rest =>
    have : Decidable (grouped P rest) := grouped_decidable P rest
    inferInstanceAs (Decidable
      ((∀ y ∈ rest.dropWhile
          (fun z : node V => P.key_equal (P.extract_key x.val) (P.extract_key z.val)),
        P.key_equal (P.extract_key x.val) (P.extract_key y.val) = false) ∧ grouped P rest))

instance (P : policy K V) (l : List (node V)) : Decidable (grouped P l) :=
  grouped_decidable P l

/-- A policy whose list of bucket counts is the single prime 7: values are their own
keys, hashed by identity and compared by equality. -/
def single_prime_policy : policy Nat Nat where
  hash := fun k => k
  key_equal := fun k l => decide (k = l)
  extract_key := fun v => v
  next_prime := fun _ => 7

/-- A policy for concrete runs: values are their own keys, hashed by identity and
compared by equality; bucket counts come from the primes 2, 3, 5, 7, 11, 13. -/
def nat_policy : policy Nat Nat where
  hash := fun k => k
  key_equal := fun k l => decide (k = l)
  extract_key := fun v => v
  next_prime := fun n => ([2, 3, 5, 7, 11, 13].find? (fun p => decide (n ≤ p))).getD 13


/-! ## Bucket indices and chain lengths -/

theorem bkt_num_key_lt (P : policy K V) (key : K) (n b : Nat)
    (h : bkt_num_key P key n = some b) : b < n := by
  unfold bkt_num_key at h
  split at h
  · cases h
  · rename_i hn
    cases h
    exact Nat.mod_lt _ (Nat.pos_of_ne_zero hn)

theorem bkt_num_key_eq (P : policy K V) (key : K) (n b : Nat)
    (h : bkt_num_key P key n = some b) : b = P.hash key % n := by
  unfold bkt_num_key at h
  split at h
  · cases h
  · cases h; rfl

theorem bkt_num_key_pos (P : policy K V) (key : K) (n : Nat) (h : 0 < n) :
    bkt_num_key P key n = some (P.hash key % n) := by
  unfold bkt_num_key
  rw [if_neg (Nat.pos_iff_ne_zero.mp h)]

theorem sum_lengths_set (l : List (List (node V))) (i : Nat) (c : List (node V))
    (h : i < l.length) :
    ((l.set i c).map List.length).sum + (l.getD i []).length
      = (l.map List.length).sum + c.length := by
  induction l generalizing i with
  | nil => simp at h
  | cons x xs ih =>
    cases i with
    | zero => simp; omega
    | succ j =>
      have hj : j < xs.length := by simpa using h
      have := ih j hj
      simp only [List.set_cons_succ, List.map_cons, List.sum_cons, List.getD_cons_succ]
      omega

theorem rehash_loop_some (l : List (List (node V))) (h : rehash_loop l = some ()) :
    ∀ c ∈ l, c = [] := by
  induction l with
  | nil => simp
  | cons x xs ih =>
    cases x with
    | nil =>
      intro c hc
      rcases List.mem_cons.mp hc with rfl | hc
      · rfl
      · exact ih (by simpa [rehash_loop] using h) c hc
    | cons y ys => simp [rehash_loop] at h

theorem rehash_loop_of_empty (l : List (List (node V))) (h : ∀ c ∈ l, c = []) :
    rehash_loop l = some () := by
  induction l with
  | nil => rfl
  | cons x xs ih =>
    have hx : x = [] := h x (List.mem_cons_self _ _)
    subst hx
    simpa [rehash_loop] using ih (fun c hc => h c (List.mem_cons_of_mem _ hc))

theorem sum_lengths_of_empty (l : List (List (node V))) (h : ∀ c ∈ l, c = []) :
    (l.map List.length).sum = 0 := by
  induction l with
  | nil => rfl
  | cons x xs ih =>
    have hx : x = [] := h x (List.mem_cons_self _ _)
    subst hx
    simpa using ih (fun c hc => h c (List.mem_cons_of_mem _ hc))

/-- What a call of `resize` that returns leaves: the table as it was, or `n` empty
buckets for a table that held no node. -/
theorem resize_ok (P : policy K V) (t t' : hashtable V) (hint : Nat)
    (h : resize P t hint = result.ok t' ()) :
    t' = t ∨ ((∀ c ∈ t.buckets_, c = []) ∧ t.buckets_.length < next_size P hint ∧
      t' = { buckets_ := List.replicate (next_size P hint) [],
             num_elements_ := t.num_elements_ }) := by
  unfold resize at h
  simp only at h
  split at h
  · left; cases h; rfl
  · split at h
    · left; cases h; rfl
    · rename_i h1 h2
      split at h
      · cases h
      · rename_i u hu
        right
        refine ⟨rehash_loop_some _ hu, by omega, ?_⟩
        cases h; rfl

/-! ## `num_elements_` counts the nodes -/

theorem counted_resize (P : policy K V) (t t' : hashtable V) (hint : Nat)
    (hc : counted t) (h : resize P t hint = result.ok t' ()) : counted t' := by
  rcases resize_ok P t t' hint h with rfl | ⟨he, _, rfl⟩
  · exact hc
  · unfold counted at hc ⊢
    rw [sum_lengths_of_empty _ he] at hc
    simp [hc]

theorem new_node_some (a a' : allocator) (obj : V) (n : node V)
    (h : new_node a obj = some (a', n)) :
    n = { addr := a.fresh, val := obj } ∧ a'.fresh = a.fresh + 1 ∧ a.quota = a'.quota + 1 := by
  unfold new_node at h
  split at h
  · cases h
  · rename_i hq
    cases h
    exact ⟨rfl, rfl, by simp; omega⟩

theorem counted_insert_unique_noresize (P : policy K V) (a a' : allocator)
    (t t' : hashtable V) (obj : V) (r : iterator × Bool) (hc : counted t)
    (h : insert_unique_noresize P a t obj = result.ok (a', t') r) : counted t' := by
  unfold insert_unique_noresize at h
  split at h
  · cases h
  · rename_i bucket hb
    have hlt := bkt_num_key_lt P _ _ _ hb
    simp only at h
    split at h
    · cases h; exact hc
    · split at h
      · cases h
      · rename_i a2 tmp hn
        cases h
        unfold counted at hc ⊢
        have := sum_lengths_set t.buckets_ bucket (tmp :: t.buckets_.getD bucket []) hlt
        simp only [List.length_cons] at this ⊢
        omega

theorem length_link_after (P : policy K V) (obj : V) (tmp : node V) (l : List (node V))
    (x : node V) (h : find_in_chain P (P.extract_key obj) l = some x) :
    (link_after P obj tmp l).length = l.length + 1 := by
  induction l with
  | nil => simp [find_in_chain] at h
  | cons y ys ih =>
    unfold link_after
    unfold find_in_chain at h
    split
    · simp
    · rename_i hne
      rw [if_neg hne] at h
      simp [ih h]

theorem counted_insert_equal_noresize (P : policy K V) (a a' : allocator)
    (t t' : hashtable V) (obj : V) (r : iterator) (hc : counted t)
    (h : insert_equal_noresize P a t obj = result.ok (a', t') r) : counted t' := by
  unfold insert_equal_noresize at h
  split at h
  · cases h
  · rename_i bucket hb
    have hlt := bkt_num_key_lt P _ _ _ hb
    simp only at h
    split at h
    · rename_i x hx
      split at h
      · cases h
      · rename_i a2 tmp hn
        cases h
        unfold counted at hc ⊢
        have := sum_lengths_set t.buckets_ bucket
          (link_after P obj tmp (t.buckets_.getD bucket [])) hlt
        rw [length_link_after P obj tmp _ x hx] at this
        simp only at this ⊢
        omega
    · split at h
      · cases h
      · rename_i a2 tmp hn
        cases h
        unfold counted at hc ⊢
        have := sum_lengths_set t.buckets_ bucket (tmp :: t.buckets_.getD bucket []) hlt
        simp only [List.length_cons] at this ⊢
        omega

theorem counted_insert_unique (P : policy K V) (a a' : allocator)
    (t t' : hashtable V) (obj : V) (r : iterator × Bool) (hc : counted t)
    (h : insert_unique P a t obj = result.ok (a', t') r) : counted t' := by
  unfold insert_unique at h
  split at h
  · rename_i t1 u hr
    exact counted_insert_unique_noresize P a a' t1 t' obj r (counted_resize P t t1 _ hc hr) h
  · cases h
  · cases h

theorem counted_insert_equal (P : policy K V) (a a' : allocator)
    (t t' : hashtable V) (obj : V) (r : iterator) (hc : counted t)
    (h : insert_equal P a t obj = result.ok (a', t') r) : counted t' := by
  unfold insert_equal at h
  split at h
  · rename_i t1 u hr
    exact counted_insert_equal_noresize P a a' t1 t' obj r (counted_resize P t t1 _ hc hr) h
  · cases h
  · cases h

theorem counted_clear (t : hashtable V) : counted (clear t) := by
  unfold counted clear
  simp only
  symm
  apply sum_lengths_of_empty
  intro c hc
  simp at hc
  exact hc.2

/-- A chain copied to its end holds the values of the source chain, in order. -/
theorem copy_chain_done (a a' : allocator) (l l' : List (node V))
    (h : copy_chain a l = (a', l', true)) :
    l'.map node.val = l.map node.val ∧
      l'.map node.addr = (List.range l.length).map (fun i => a.fresh + i) ∧
      a'.fresh = a.fresh + l.length ∧ a.quota = a'.quota + l.length := by
  induction l generalizing a a' l' with
  | nil =>
    simp [copy_chain] at h
    obtain ⟨rfl, rfl⟩ := h
    simp
  | cons x xs ih =>
    unfold copy_chain at h
    split at h
    · simp at h
    · rename_i a1 n hn
      obtain ⟨rfl, hf, hq⟩ := new_node_some _ _ _ _ hn
      split at h
      rename_i a2 more done hm
      simp only [Prod.mk.injEq] at h
      obtain ⟨rfl, rfl, rfl⟩ := h
      obtain ⟨h1, h2, h3, h4⟩ := ih a1 a2 more hm
      refine ⟨by simp [h1], ?_, by simp; omega, by simp; omega⟩
      simp only [List.map_cons, h2, hf, List.length_cons, List.range_succ_eq_map,
        List.map_map]
      simp only [Nat.add_zero, List.cons.injEq, true_and]
      apply List.map_congr_left
      intro i _
      simp; omega

/-- The buckets copied to their end hold, chain by chain, the values of the source. -/
theorem copy_buckets_done (a a' : allocator) (l l' : List (List (node V)))
    (h : copy_buckets a l = (a', l', true)) :
    l'.map (List.map node.val) = l.map (List.map node.val) ∧
      a.quota = a'.quota + (l.map List.length).sum := by
  induction l generalizing a a' l' with
  | nil =>
    simp [copy_buckets] at h
    obtain ⟨rfl, rfl⟩ := h
    simp
  | cons x xs ih =>
    unfold copy_buckets at h
    split at h
    · rename_i a1 c hc
      split at h
      rename_i a2 more done hm
      simp only [Prod.mk.injEq] at h
      obtain ⟨rfl, rfl, rfl⟩ := h
      obtain ⟨h1, _, _, h4⟩ := copy_chain_done a a1 x c hc
      obtain ⟨h5, h6⟩ := ih a1 a2 more hm
      refine ⟨by simp [h1, h5], by simp; omega⟩
    · simp at h

theorem map_length_of_map_val (l l' : List (List (node V)))
    (h : l'.map (List.map node.val) = l.map (List.map node.val)) :
    l'.map List.length = l.map List.length := by
  have := congrArg (List.map List.length) h
  simpa [List.map_map, Function.comp_def] using this

theorem counted_copy_from (a a' : allocator) (self ht t' : hashtable V) (hc : counted ht)
    (h : copy_from a self ht = result.ok (a', t') ()) : counted t' := by
  unfold copy_from at h
  split at h
  · rename_i a1 bs hb
    cases h
    unfold counted at hc ⊢
    simp only
    rw [map_length_of_map_val _ _ (copy_buckets_done _ _ _ _ hb).1]
    exact hc
  · cases h

theorem counted_of_reachable (P : policy K V) (t : hashtable V) (h : reachable P t) :
    counted t := by
  induction h with
  | empty => simp [counted, empty_table]
  | init n => simp [counted, initialize_buckets]
  | insert_unique a a' obj r _ h ih => exact counted_insert_unique P a a' _ _ obj r ih h
  | insert_equal a a' obj r _ h ih => exact counted_insert_equal P a a' _ _ obj r ih h
  | resize hint _ h ih => exact counted_resize P _ _ hint ih h
  | clear _ ih => exact counted_clear _
  | copy_from a a' _ _ h _ ih => exact counted_copy_from a a' _ _ _ ih h

/-! ## Every node lies in the bucket of its hash -/

theorem chains_placed_iff (P : policy K V) (t : hashtable V) :
    chains_placed P t ↔ ∀ i x, x ∈ t.buckets_.getD i [] →
      P.hash (P.extract_key x.val) % t.buckets_.length = i := by
  unfold chains_placed
  constructor
  · intro h i x hx
    by_cases hi : i < t.buckets_.length
    · have := h ⟨i, hi⟩ x
      simp only [List.get_eq_getElem] at this
      apply this
      simpa [List.getD_eq_getElem?_getD, List.getElem?_eq_getElem hi] using hx
    · rw [List.getD_eq_default _ _ (by omega)] at hx
      simp at hx
  · intro h i x hx
    apply h i.val x
    simpa [List.getD_eq_getElem?_getD, List.getElem?_eq_getElem i.isLt] using hx

theorem getD_set (l : List (List (node V))) (b i : Nat) (c : List (node V)) :
    (l.set b c).getD i [] = if i = b ∧ b < l.length then c else l.getD i [] := by
  simp only [List.getD_eq_getElem?_getD, List.getElem?_set]
  by_cases hib : b = i
  · subst hib
    by_cases hb : b < l.length
    · simp [hb]
    · simp [hb, List.getElem?_eq_none (Nat.le_of_not_lt hb)]
  · have : ¬ i = b := fun h => hib h.symm
    simp [hib, this]

theorem chains_placed_set (P : policy K V) (t : hashtable V) (b n : Nat)
    (c : List (node V)) (hp : chains_placed P t)
    (hc : ∀ x ∈ c, P.hash (P.extract_key x.val) % t.buckets_.length = b) :
    chains_placed P { buckets_ := t.buckets_.set b c, num_elements_ := n } := by
  rw [chains_placed_iff] at hp ⊢
  intro i x hx
  simp only [List.length_set] at hx ⊢
  rw [getD_set] at hx
  split at hx
  · rename_i h
    rw [h.1]
    exact hc x hx
  · exact hp i x hx

theorem chains_placed_of_empty (P : policy K V) (t : hashtable V)
    (h : ∀ c ∈ t.buckets_, c = []) : chains_placed P t := by
  intro i x hx
  rw [h _ (List.get_mem _ _ _)] at hx
  simp at hx

theorem chains_placed_resize (P : policy K V) (t t' : hashtable V) (hint : Nat)
    (hp : chains_placed P t) (h : resize P t hint = result.ok t' ()) :
    chains_placed P t' := by
  rcases resize_ok P t t' hint h with rfl | ⟨_, _, rfl⟩
  · exact hp
  · apply chains_placed_of_empty
    intro c hc
    exact List.eq_of_mem_replicate hc

theorem mem_link_after (P : policy K V) (obj : V) (tmp : node V) (l : List (node V))
    (x : node V) (h : x ∈ link_after P obj tmp l) : x = tmp ∨ x ∈ l := by
  induction l with
  | nil => simp [link_after] at h
  | cons y ys ih =>
    unfold link_after at h
    split at h
    · simp only [List.mem_cons] at h ⊢
      tauto
    · simp only [List.mem_cons] at h ⊢
      rcases h with h | h
      · tauto
      · rcases ih h with h | h <;> tauto

theorem chains_placed_insert_unique_noresize (P : policy K V) (a a' : allocator)
    (t t' : hashtable V) (obj : V) (r : iterator × Bool) (hp : chains_placed P t)
    (h : insert_unique_noresize P a t obj = result.ok (a', t') r) : chains_placed P t' := by
  unfold insert_unique_noresize at h
  split at h
  · cases h
  · rename_i bucket hb
    have hlt := bkt_num_key_lt P _ _ _ hb
    have heq := bkt_num_key_eq P _ _ _ hb
    simp only at h
    split at h
    · cases h; exact hp
    · split at h
      · cases h
      · rename_i a2 tmp hn
        obtain ⟨rfl, -, -⟩ := new_node_some _ _ _ _ hn
        cases h
        apply chains_placed_set P t bucket _ _ hp
        intro x hx
        rcases List.mem_cons.mp hx with rfl | hx
        · exact heq.symm
        · exact (chains_placed_iff P t).mp hp bucket x hx

theorem chains_placed_insert_equal_noresize (P : policy K V) (a a' : allocator)
    (t t' : hashtable V) (obj : V) (r : iterator) (hp : chains_placed P t)
    (h : insert_equal_noresize P a t obj = result.ok (a', t') r) : chains_placed P t' := by
  unfold insert_equal_noresize at h
  split at h
  · cases h
  · rename_i bucket hb
    have hlt := bkt_num_key_lt P _ _ _ hb
    have heq := bkt_num_key_eq P _ _ _ hb
    simp only at h
    split at h
    · split at h
      · cases h
      · rename_i a2 tmp hn
        obtain ⟨rfl, -, -⟩ := new_node_some _ _ _ _ hn
        cases h
        apply chains_placed_set P t bucket _ _ hp
        intro x hx
        rcases mem_link_after P obj _ _ x hx with rfl | hx
        · exact heq.symm
        · exact (chains_placed_iff P t).mp hp bucket x hx
    · split at h
      · cases h
      · rename_i a2 tmp hn
        obtain ⟨rfl, -, -⟩ := new_node_some _ _ _ _ hn
        cases h
        apply chains_placed_set P t bucket _ _ hp
        intro x hx
        rcases List.mem_cons.mp hx with rfl | hx
        · exact heq.symm
        · exact (chains_placed_iff P t).mp hp bucket x hx

theorem chains_placed_insert_unique (P : policy K V) (a a' : allocator)
    (t t' : hashtable V) (obj : V) (r : iterator × Bool) (hp : chains_placed P t)
    (h : insert_unique P a t obj = result.ok (a', t') r) : chains_placed P t' := by
  unfold insert_unique at h
  split at h
  · rename_i t1 u hr
    exact chains_placed_insert_unique_noresize P a a' t1 t' obj r
      (chains_placed_resize P t t1 _ hp hr) h
  · cases h
  · cases h

theorem chains_placed_insert_equal (P : policy K V) (a a' : allocator)
    (t t' : hashtable V) (obj : V) (r : iterator) (hp : chains_placed P t)
    (h : insert_equal P a t obj = result.ok (a', t') r) : chains_placed P t' := by
  unfold insert_equal at h
  split at h
  · rename_i t1 u hr
    exact chains_placed_insert_equal_noresize P a a' t1 t' obj r
      (chains_placed_resize P t t1 _ hp hr) h
  · cases h
  · cases h

theorem chains_placed_clear (P : policy K V) (t : hashtable V) :
    chains_placed P (clear t) := by
  apply chains_placed_of_empty
  intro c hc
  simp [clear] at hc
  exact hc.2

theorem chains_placed_of_map_val (P : policy K V) (t t' : hashtable V)
    (hv : t'.buckets_.map (List.map node.val) = t.buckets_.map (List.map node.val))
    (hp : chains_placed P t) : chains_placed P t' := by
  have hlen : t'.buckets_.length = t.buckets_.length := by
    simpa using congrArg List.length hv
  intro i x hx
  have hi : i.val < t.buckets_.length := hlen ▸ i.isLt
  have hget : (t'.buckets_.get i).map node.val = (t.buckets_.get ⟨i.val, hi⟩).map node.val := by
    have h1 : (t'.buckets_.map (List.map node.val))[i.val]? =
        (t.buckets_.map (List.map node.val))[i.val]? := by rw [hv]
    simpa [List.getElem?_map, List.getElem?_eq_getElem hi, List.getElem?_eq_getElem i.isLt]
      using h1
  have hmem : x.val ∈ (t'.buckets_.get i).map node.val := List.mem_map_of_mem _ hx
  rw [hget] at hmem
  obtain ⟨y, hy, hyx⟩ := List.mem_map.mp hmem
  have := hp ⟨i.val, hi⟩ y hy
  simp only at this
  show P.hash (P.extract_key x.val) % t'.buckets_.length = i.val
  rw [← hyx]
  exact (congrArg (fun n => P.hash (P.extract_key y.val) % n) hlen).trans this

theorem chains_placed_copy_from (P : policy K V) (a a' : allocator)
    (self ht t' : hashtable V) (hp : chains_placed P ht)
    (h : copy_from a self ht = result.ok (a', t') ()) : chains_placed P t' := by
  unfold copy_from at h
  split at h
  · rename_i a1 bs hb
    cases h
    exact chains_placed_of_map_val P ht _ (copy_buckets_done _ _ _ _ hb).1 hp
  · cases h

/-! ## The chain scan of `find` -/

theorem find_in_chain_none (P : policy K V) (key : K) (l : List (node V)) :
    find_in_chain P key l = none ↔
      ∀ y ∈ l, P.key_equal (P.extract_key y.val) key = false := by
  induction l with
  | nil => simp [find_in_chain]
  | cons x xs ih =>
    unfold find_in_chain
    by_cases hx : P.key_equal (P.extract_key x.val) key = true
    · simp [hx]
    · simp only [hx, Bool.false_eq_true, if_false, ih, List.mem_cons, forall_eq_or_imp]
      simp only [Bool.not_eq_true] at hx
      simp [hx]

theorem find_in_chain_some (P : policy K V) (key : K) (l : List (node V)) (x : node V)
    (h : find_in_chain P key l = some x) :
    ∃ pre post, l = pre ++ x :: post ∧
      (∀ y ∈ pre, P.key_equal (P.extract_key y.val) key = false) ∧
      P.key_equal (P.extract_key x.val) key = true := by
  induction l with
  | nil => simp [find_in_chain] at h
  | cons y ys ih =>
    unfold find_in_chain at h
    split at h
    · rename_i hy
      cases h
      exact ⟨[], ys, rfl, by simp, hy⟩
    · rename_i hy
      obtain ⟨pre, post, rfl, h1, h2⟩ := ih h
      refine ⟨y :: pre, post, rfl, ?_, h2⟩
      intro z hz
      rcases List.mem_cons.mp hz with rfl | hz
      · simpa using hy
      · exact h1 z hz

theorem mem_all_nodes (t : hashtable V) (x : node V) :
    x ∈ all_nodes t ↔ ∃ i : Fin t.buckets_.length, x ∈ t.buckets_.get i := by
  unfold all_nodes
  rw [List.mem_flatten]
  constructor
  · rintro ⟨c, hc, hx⟩
    obtain ⟨i, rfl⟩ := List.mem_iff_get.mp hc
    exact ⟨i, hx⟩
  · rintro ⟨i, hx⟩
    exact ⟨_, List.get_mem _ _ _, hx⟩

/-- A stored value whose key equals `key` lies in the chain `find` scans. -/
theorem mem_bucket_of_key_equal (P : policy K V) (hP : lawful P) (t : hashtable V)
    (hp : chains_placed P t) (key : K) (x : node V) (hx : x ∈ all_nodes t)
    (he : P.key_equal (P.extract_key x.val) key = true) :
    x ∈ t.buckets_.getD (P.hash key % t.buckets_.length) [] := by
  obtain ⟨i, hi⟩ := (mem_all_nodes t x).mp hx
  have h1 := hp i x hi
  rw [hP.hash_eq _ _ he] at h1
  rw [h1, List.getD_eq_getElem?_getD, List.getElem?_eq_getElem i.isLt]
  simpa using hi

theorem mem_all_nodes_of_getD (t : hashtable V) (i : Nat) (x : node V)
    (hx : x ∈ t.buckets_.getD i []) : x ∈ all_nodes t := by
  by_cases hi : i < t.buckets_.length
  · rw [mem_all_nodes]
    refine ⟨⟨i, hi⟩, ?_⟩
    simpa [List.getD_eq_getElem?_getD, List.getElem?_eq_getElem hi] using hx
  · rw [List.getD_eq_default _ _ (by omega)] at hx
    simp at hx

theorem find_ok (P : policy K V) (hP : lawful P) (t : hashtable V)
    (hp : chains_placed P t) (hb : 0 < t.buckets_.length) (key : K) :
    ∃ it, find P t key = result.ok t it ∧
      (it = none ↔ ∀ x ∈ all_nodes t, P.key_equal (P.extract_key x.val) key = false) ∧
      (∀ p, it = some p → ∃ pre x post,
        t.buckets_.getD (P.hash key % t.buckets_.length) [] = pre ++ x :: post ∧
        (∀ y ∈ pre, P.key_equal (P.extract_key y.val) key = false) ∧
        P.key_equal (P.extract_key x.val) key = true ∧ x.addr = p) := by
  refine ⟨_, by unfold find; rw [bkt_num_key_pos P key _ hb], ?_, ?_⟩
  · rw [Option.map_eq_none', find_in_chain_none]
    constructor
    · intro h x hx
      by_contra hne
      have he : P.key_equal (P.extract_key x.val) key = true := by simpa using hne
      have := h x (mem_bucket_of_key_equal P hP t hp key x hx he)
      rw [he] at this
      cases this
    · intro h y hy
      exact h y (mem_all_nodes_of_getD t _ y hy)
  · intro p hp'
    obtain ⟨x, hx, rfl⟩ := Option.map_eq_some'.mp hp'
    obtain ⟨pre, post, h1, h2, h3⟩ := find_in_chain_some P key _ x hx
    exact ⟨pre, x, post, h1, h2, h3, rfl⟩

/-! ## `copy_from` -/

theorem copy_chain_enough (a : allocator) (l : List (node V)) (h : l.length ≤ a.quota) :
    ∃ a' l', copy_chain a l = (a', l', true) := by
  induction l generalizing a with
  | nil => exact ⟨a, [], rfl⟩
  | cons x xs ih =>
    have hq : a.quota ≠ 0 := by simp at h; omega
    obtain ⟨a', l', h'⟩ := ih { fresh := a.fresh + 1, quota := a.quota - 1 }
      (by simp at h ⊢; omega)
    refine ⟨a', { addr := a.fresh, val := x.val } :: l', ?_⟩
    simp only [copy_chain, new_node, if_neg hq, h']

theorem copy_buckets_enough (a : allocator) (l : List (List (node V)))
    (h : (l.map List.length).sum ≤ a.quota) :
    ∃ a' l', copy_buckets a l = (a', l', true) := by
  induction l generalizing a with
  | nil => exact ⟨a, [], rfl⟩
  | cons x xs ih =>
    simp only [List.map_cons, List.sum_cons] at h
    obtain ⟨a1, c, hc⟩ := copy_chain_enough a x (by omega)
    have hq := (copy_chain_done a a1 x c hc).2.2.2
    obtain ⟨a2, more, hm⟩ := ih a1 (by omega)
    refine ⟨a2, c :: more, ?_⟩
    simp only [copy_buckets, hc, hm]

theorem copy_chain_short (a : allocator) (l : List (node V)) (h : a.quota < l.length) :
    ∃ a' l', copy_chain a l = (a', l', false) := by
  induction l generalizing a with
  | nil => simp at h
  | cons x xs ih =>
    by_cases hq : a.quota = 0
    · exact ⟨a, [], by simp only [copy_chain, new_node, if_pos hq]⟩
    · obtain ⟨a', l', h'⟩ := ih { fresh := a.fresh + 1, quota := a.quota - 1 }
        (by simp at h ⊢; omega)
      refine ⟨a', { addr := a.fresh, val := x.val } :: l', ?_⟩
      simp only [copy_chain, new_node, if_neg hq, h']

theorem copy_chain_cases (a : allocator) (l : List (node V)) :
    (∃ a' l', copy_chain a l = (a', l', true)) ∨ (∃ a' l', copy_chain a l = (a', l', false)) := by
  by_cases h : l.length ≤ a.quota
  · exact Or.inl (copy_chain_enough a l h)
  · exact Or.inr (copy_chain_short a l (by omega))

theorem copy_buckets_short (a : allocator) (l : List (List (node V)))
    (h : a.quota < (l.map List.length).sum) :
    ∃ a' l', copy_buckets a l = (a', l', false) ∧ l'.length = l.length := by
  induction l generalizing a with
  | nil => simp at h
  | cons x xs ih =>
    simp only [List.map_cons, List.sum_cons] at h
    rcases copy_chain_cases a x with ⟨a1, c, hc⟩ | ⟨a1, c, hc⟩
    · have hq := (copy_chain_done a a1 x c hc).2.2.2
      obtain ⟨a2, more, hm, hl⟩ := ih a1 (by omega)
      refine ⟨a2, c :: more, ?_, by simp [hl]⟩
      simp only [copy_buckets, hc, hm]
    · refine ⟨a1, c :: xs.map (fun _ => []), ?_, by simp⟩
      simp only [copy_buckets, hc]

theorem copy_chain_fresh (a a' : allocator) (l l' : List (node V))
    (h : copy_chain a l = (a', l', true)) :
    ∀ x ∈ l', a.fresh ≤ x.addr ∧ x.addr < a'.fresh := by
  obtain ⟨_, h2, h3, _⟩ := copy_chain_done a a' l l' h
  intro x hx
  have : x.addr ∈ l'.map node.addr := List.mem_map_of_mem _ hx
  rw [h2] at this
  simp only [List.mem_map, List.mem_range] at this
  obtain ⟨i, hi, hxi⟩ := this
  omega

theorem copy_buckets_fresh (a a' : allocator) (l l' : List (List (node V)))
    (h : copy_buckets a l = (a', l', true)) :
    a.fresh ≤ a'.fresh ∧ ∀ x ∈ l'.flatten, a.fresh ≤ x.addr ∧ x.addr < a'.fresh := by
  induction l generalizing a a' l' with
  | nil =>
    simp [copy_buckets] at h
    obtain ⟨rfl, rfl⟩ := h
    simp
  | cons y ys ih =>
    unfold copy_buckets at h
    split at h
    · rename_i a1 c hc
      split at h
      rename_i a2 more done hm
      simp only [Prod.mk.injEq] at h
      obtain ⟨rfl, rfl, rfl⟩ := h
      have h1 := copy_chain_fresh a a1 y c hc
      have h3 := (copy_chain_done a a1 y c hc).2.2.1
      obtain ⟨h4, h5⟩ := ih a1 a2 more hm
      refine ⟨by omega, ?_⟩
      intro x hx
      simp only [List.flatten_cons, List.mem_append] at hx
      rcases hx with hx | hx
      · have := h1 x hx
        omega
      · have := h5 x hx
        omega
    · simp at h

/-! ## Iteration -/

theorem chain_at_none (p : Nat) (c : List (node V)) (h : p ∉ c.map node.addr) :
    chain_at p c = none := by
  induction c with
  | nil => rfl
  | cons y ys ih =>
    simp only [List.map_cons, List.mem_cons, not_or] at h
    unfold chain_at
    rw [if_neg (fun e => h.1 e.symm)]
    exact ih h.2

theorem chain_at_append (c1 : List (node V)) (x : node V) (c2 : List (node V))
    (h : x.addr ∉ c1.map node.addr) : chain_at x.addr (c1 ++ x :: c2) = some (x :: c2) := by
  induction c1 with
  | nil => simp [chain_at]
  | cons y ys ih =>
    simp only [List.map_cons, List.mem_cons, not_or] at h
    simp only [List.cons_append, chain_at]
    rw [if_neg (fun e => h.1 e.symm)]
    exact ih h.2

theorem node_at_skip (p : Nat) (pre rest : List (List (node V)))
    (h : p ∉ pre.flatten.map node.addr) : node_at p (pre ++ rest) = node_at p rest := by
  induction pre with
  | nil => rfl
  | cons c cs ih =>
    simp only [List.flatten_cons, List.map_append, List.mem_append, not_or] at h
    simp only [List.cons_append, node_at, chain_at_none p c h.1]
    exact ih h.2

theorem node_at_found (pre : List (List (node V))) (c1 : List (node V)) (x : node V)
    (c2 : List (node V)) (post : List (List (node V)))
    (hd : ((pre ++ (c1 ++ x :: c2) :: post).flatten.map node.addr).Nodup) :
    node_at x.addr (pre ++ (c1 ++ x :: c2) :: post) = some (x :: c2) := by
  simp only [List.flatten_append, List.flatten_cons, List.map_append, List.map_cons,
    List.append_assoc] at hd
  rw [List.nodup_append] at hd
  obtain ⟨_, h2, h3⟩ := hd
  rw [List.nodup_append] at h2
  obtain ⟨_, h4, h5⟩ := h2
  have hpre : x.addr ∉ pre.flatten.map node.addr := by
    intro hm
    exact h3 hm (by simp)
  have hc1 : x.addr ∉ c1.map node.addr := by
    intro hm
    exact h5 hm (by simp)
  rw [node_at_skip _ _ _ hpre]
  simp only [node_at, chain_at_append c1 x c2 hc1]

theorem first_head_none (l : List (List (node V))) (h : first_head l = none) :
    l.flatten = [] := by
  induction l with
  | nil => rfl
  | cons c cs ih =>
    cases c with
    | nil => simpa [first_head] using ih (by simpa [first_head] using h)
    | cons y ys => simp [first_head] at h

theorem first_head_some (l : List (List (node V))) (y : node V) (h : first_head l = some y) :
    ∃ e c post, l = e ++ (y :: c) :: post ∧ e.flatten = [] := by
  induction l with
  | nil => simp [first_head] at h
  | cons c cs ih =>
    cases c with
    | nil =>
      obtain ⟨e, c, post, rfl, he⟩ := ih (by simpa [first_head] using h)
      exact ⟨[] :: e, c, post, rfl, by simpa using he⟩
    | cons z zs =>
      simp only [first_head, Option.some.injEq] at h
      subst h
      exact ⟨[], zs, cs, rfl, rfl⟩

theorem bkt_num_of_placed (P : policy K V) (t : hashtable V) (hp : chains_placed P t)
    (pre : List (List (node V))) (c1 : List (node V)) (x : node V) (c2 : List (node V))
    (post : List (List (node V))) (hbs : t.buckets_ = pre ++ (c1 ++ x :: c2) :: post) :
    bkt_num P x.val t.buckets_.length = some pre.length := by
  have hlt : pre.length < t.buckets_.length := by simp [hbs]
  have hmem : x ∈ t.buckets_.getD pre.length [] := by
    rw [hbs, List.getD_eq_getElem?_getD, List.getElem?_append_right (Nat.le_refl _)]
    simp
  have := (chains_placed_iff P t).mp hp pre.length x hmem
  unfold bkt_num
  rw [bkt_num_key_pos P _ _ (by omega), this]

/-- One `operator++` from a node: to the next node of the chain, or to the head of
the next non-empty bucket, or to end. -/
theorem increment_at (P : policy K V) (t : hashtable V) (hp : chains_placed P t)
    (hd : distinct_nodes t) (pre : List (List (node V))) (c1 : List (node V)) (x : node V)
    (c2 : List (node V)) (post : List (List (node V)))
    (hbs : t.buckets_ = pre ++ (c1 ++ x :: c2) :: post) :
    increment P t (some x.addr) = some ((c2 ++ post.flatten).head?.map node.addr) := by
  have hn : node_at x.addr t.buckets_ = some (x :: c2) := by
    rw [hbs]
    apply node_at_found
    unfold distinct_nodes all_nodes at hd
    rw [hbs] at hd
    exact hd
  unfold increment
  simp only [hn]
  cases c2 with
  | cons y ys => simp
  | nil =>
    simp only [bkt_num_of_placed P t hp pre c1 x [] post hbs]
    have hdrop : t.buckets_.drop (pre.length + 1) = post := by
      rw [hbs]
      simp [List.drop_append_eq_append_drop]
    rw [hdrop]
    cases hf : first_head post with
    | none => simp [first_head_none post hf]
    | some y =>
      obtain ⟨e, c, post', rfl, he⟩ := first_head_some post y hf
      simp [he]

/-- The iterator `k` steps after a node is at the `k`-th node that follows it in
bucket order, or at end when the nodes are exhausted. -/
theorem advance_at (P : policy K V) (t : hashtable V) (hp : chains_placed P t)
    (hd : distinct_nodes t) (k : Nat) :
    ∀ (pre : List (List (node V))) (c1 : List (node V)) (x : node V) (c2 : List (node V))
      (post : List (List (node V))), t.buckets_ = pre ++ (c1 ++ x :: c2) :: post →
      k ≤ (x :: (c2 ++ post.flatten)).length →
      advance P t k (some x.addr)
        = some (((x :: (c2 ++ post.flatten)).drop k).head?.map node.addr) := by
  induction k with
  | zero => intro pre c1 x c2 post _ _; simp [advance]
  | succ k ih =>
    intro pre c1 x c2 post hbs hk
    simp only [advance, increment_at P t hp hd pre c1 x c2 post hbs, List.drop_succ_cons]
    simp only [List.length_cons] at hk
    cases c2 with
    | cons y ys =>
      have hbs' : t.buckets_ = pre ++ ((c1 ++ [x]) ++ y :: ys) :: post := by
        rw [hbs]; simp
      have := ih pre (c1 ++ [x]) y ys post hbs' (by simp at hk ⊢; omega)
      simpa using this
    | nil =>
      simp only [List.nil_append] at hk ⊢
      cases hf : first_head post with
      | none =>
        have he := first_head_none post hf
        rw [he] at hk ⊢
        have hk0 : k = 0 := by simpa using hk
        subst hk0
        simp [advance]
      | some y =>
        obtain ⟨e, c, post', rfl, he⟩ := first_head_some post y hf
        have hbs' : t.buckets_ = (pre ++ (c1 ++ [x]) :: e) ++ ([] ++ y :: c) :: post' := by
          rw [hbs]; simp
        have := ih (pre ++ (c1 ++ [x]) :: e) [] y c post' hbs'
          (by simp [he] at hk ⊢; omega)
        simpa [he] using this

/-- Iteration from the first node: after `k` steps the iterator is at the `k`-th
node of the table in bucket order, and at end once `k` reaches their number. -/
theorem advance_first_node (P : policy K V) (t : hashtable V) (hp : chains_placed P t)
    (hd : distinct_nodes t) (k : Nat) (hk : k ≤ (all_nodes t).length) :
    advance P t k (first_node t) = some (((all_nodes t).drop k).head?.map node.addr) := by
  unfold first_node
  cases hf : first_head t.buckets_ with
  | none =>
    have he := first_head_none _ hf
    unfold all_nodes at hk ⊢
    rw [he] at hk ⊢
    have hk0 : k = 0 := by simpa using hk
    subst hk0
    simp [advance]
  | some y =>
    obtain ⟨e, c, post, hbs, he⟩ := first_head_some _ y hf
    have hall : all_nodes t = y :: (c ++ post.flatten) := by
      unfold all_nodes
      rw [hbs]
      simp [he]
    have := advance_at P t hp hd k e [] y c post (by simpa using hbs) (by rw [← hall]; exact hk)
    rw [hall]
    simpa using this

theorem length_all_nodes (t : hashtable V) (hc : counted t) :
    (all_nodes t).length = t.num_elements_ := by
  unfold all_nodes counted at *
  rw [hc, List.length_flatten]

/-! ## Distinct addresses -/

theorem perm_flatten_set (l : List (List (node V))) (i : Nat) (c : List (node V))
    (tmp : node V) (h : i < l.length) (hc : c.Perm (tmp :: l.getD i [])) :
    (l.set i c).flatten.Perm (tmp :: l.flatten) := by
  induction l generalizing i with
  | nil => simp at h
  | cons x xs ih =>
    cases i with
    | zero =>
      simp only [List.set_cons_zero, List.flatten_cons]
      simp only [List.getD_cons_zero] at hc
      exact (hc.append_right _)
    | succ j =>
      simp only [List.set_cons_succ, List.flatten_cons]
      simp only [List.getD_cons_succ] at hc
      have := ih j (by simpa using h) hc
      exact (this.append_left x).trans List.perm_middle

theorem perm_link_after (P : policy K V) (obj : V) (tmp : node V) (l : List (node V))
    (x : node V) (h : find_in_chain P (P.extract_key obj) l = some x) :
    (link_after P obj tmp l).Perm (tmp :: l) := by
  induction l with
  | nil => simp [find_in_chain] at h
  | cons y ys ih =>
    unfold link_after
    unfold find_in_chain at h
    split
    · exact List.Perm.swap tmp y ys
    · rename_i hne
      rw [if_neg hne] at h
      exact ((ih h).cons y).trans (List.Perm.swap tmp y ys)

theorem distinct_of_perm_cons (a a' : allocator) (t t' : hashtable V) (tmp : node V)
    (hd : distinct_nodes t) (hh : heap_ok a t) (ht : tmp.addr = a.fresh)
    (hf : a'.fresh = a.fresh + 1) (hperm : (all_nodes t').Perm (tmp :: all_nodes t)) :
    distinct_nodes t' ∧ heap_ok a' t' := by
  constructor
  · unfold distinct_nodes at hd ⊢
    rw [(hperm.map node.addr).nodup_iff, List.map_cons, List.nodup_cons]
    refine ⟨?_, hd⟩
    intro hm
    obtain ⟨y, hy, hya⟩ := List.mem_map.mp hm
    have := hh y hy
    omega
  · intro x hx
    rcases List.mem_cons.mp (hperm.mem_iff.mp hx) with rfl | hx
    · omega
    · have := hh x hx
      omega

theorem distinct_insert_unique_noresize (P : policy K V) (a a' : allocator)
    (t t' : hashtable V) (obj : V) (r : iterator × Bool) (hd : distinct_nodes t)
    (hh : heap_ok a t) (h : insert_unique_noresize P a t obj = result.ok (a', t') r) :
    distinct_nodes t' ∧ heap_ok a' t' := by
  unfold insert_unique_noresize at h
  split at h
  · cases h
  · rename_i bucket hb
    have hlt := bkt_num_key_lt P _ _ _ hb
    simp only at h
    split at h
    · cases h; exact ⟨hd, hh⟩
    · split at h
      · cases h
      · rename_i a2 tmp hn
        obtain ⟨rfl, hf, -⟩ := new_node_some _ _ _ _ hn
        cases h
        exact distinct_of_perm_cons a a' t _ _ hd hh rfl hf
          (perm_flatten_set _ _ _ _ hlt (List.Perm.refl _))

theorem distinct_insert_equal_noresize (P : policy K V) (a a' : allocator)
    (t t' : hashtable V) (obj : V) (r : iterator) (hd : distinct_nodes t)
    (hh : heap_ok a t) (h : insert_equal_noresize P a t obj = result.ok (a', t') r) :
    distinct_nodes t' ∧ heap_ok a' t' := by
  unfold insert_equal_noresize at h
  split at h
  · cases h
  · rename_i bucket hb
    have hlt := bkt_num_key_lt P _ _ _ hb
    simp only at h
    split at h
    · rename_i x hx
      split at h
      · cases h
      · rename_i a2 tmp hn
        obtain ⟨rfl, hf, -⟩ := new_node_some _ _ _ _ hn
        cases h
        exact distinct_of_perm_cons a a' t _ _ hd hh rfl hf
          (perm_flatten_set _ _ _ _ hlt (perm_link_after P obj _ _ x hx))
    · split at h
      · cases h
      · rename_i a2 tmp hn
        obtain ⟨rfl, hf, -⟩ := new_node_some _ _ _ _ hn
        cases h
        exact distinct_of_perm_cons a a' t _ _ hd hh rfl hf
          (perm_flatten_set _ _ _ _ hlt (List.Perm.refl _))

theorem distinct_resize (P : policy K V) (a : allocator) (t t' : hashtable V) (hint : Nat)
    (hd : distinct_nodes t) (hh : heap_ok a t) (h : resize P t hint = result.ok t' ()) :
    distinct_nodes t' ∧ heap_ok a t' := by
  rcases resize_ok P t t' hint h with rfl | ⟨_, _, ht'⟩
  · exact ⟨hd, hh⟩
  · have he : all_nodes t' = [] := by
      unfold all_nodes
      rw [ht', List.flatten_eq_nil_iff]
      intro c hc
      exact List.eq_of_mem_replicate hc
    constructor
    · unfold distinct_nodes; rw [he]; simp
    · intro x hx; rw [he] at hx; simp at hx

/-- A call of `insert_unique` that returns keeps a table well formed, its nodes
being those the allocator handed out. -/
theorem well_formed_insert_unique (P : policy K V) (a a' : allocator)
    (t t' : hashtable V) (obj : V) (r : iterator × Bool) (hw : well_formed P t)
    (hh : heap_ok a t) (h : insert_unique P a t obj = result.ok (a', t') r) :
    well_formed P t' ∧ heap_ok a' t' := by
  obtain ⟨hp, hc, hd⟩ := hw
  have hp' := chains_placed_insert_unique P a a' t t' obj r hp h
  have hc' := counted_insert_unique P a a' t t' obj r hc h
  unfold insert_unique at h
  split at h
  · rename_i t1 u hr
    obtain ⟨hd1, hh1⟩ := distinct_resize P a t t1 _ hd hh hr
    obtain ⟨hd2, hh2⟩ := distinct_insert_unique_noresize P a a' t1 t' obj r hd1 hh1 h
    exact ⟨⟨hp', hc', hd2⟩, hh2⟩
  · cases h
  · cases h

/-- A call of `insert_equal` that returns keeps a table well formed. -/
theorem well_formed_insert_equal (P : policy K V) (a a' : allocator)
    (t t' : hashtable V) (obj : V) (r : iterator) (hw : well_formed P t)
    (hh : heap_ok a t) (h : insert_equal P a t obj = result.ok (a', t') r) :
    well_formed P t' ∧ heap_ok a' t' := by
  obtain ⟨hp, hc, hd⟩ := hw
  have hp' := chains_placed_insert_equal P a a' t t' obj r hp h
  have hc' := counted_insert_equal P a a' t t' obj r hc h
  unfold insert_equal at h
  split at h
  · rename_i t1 u hr
    obtain ⟨hd1, hh1⟩ := distinct_resize P a t t1 _ hd hh hr
    obtain ⟨hd2, hh2⟩ := distinct_insert_equal_noresize P a a' t1 t' obj r hd1 hh1 h
    exact ⟨⟨hp', hc', hd2⟩, hh2⟩
  · cases h
  · cases h

/-- A call of `resize` that returns keeps a table well formed. -/
theorem well_formed_resize (P : policy K V) (a : allocator) (t t' : hashtable V)
    (hint : Nat) (hw : well_formed P t) (hh : heap_ok a t)
    (h : resize P t hint = result.ok t' ()) : well_formed P t' ∧ heap_ok a t' := by
  obtain ⟨hp, hc, hd⟩ := hw
  obtain ⟨hd1, hh1⟩ := distinct_resize P a t t' hint hd hh h
  exact ⟨⟨chains_placed_resize P t t' hint hp h, counted_resize P t t' hint hc h, hd1⟩, hh1⟩

/-- The table after `clear` is well formed. -/
theorem well_formed_clear (P : policy K V) (a : allocator) (t : hashtable V) :
    well_formed P (clear t) ∧ heap_ok a (clear t) := by
  have he : all_nodes (clear t) = [] := by
    unfold all_nodes
    rw [List.flatten_eq_nil_iff]
    intro c hc
    simp [clear] at hc
    exact hc.2
  refine ⟨⟨chains_placed_clear P t, counted_clear t, ?_⟩, ?_⟩
  · unfold distinct_nodes; rw [he]; simp
  · intro x hx; rw [he] at hx; simp at hx

theorem copy_buckets_addrs (a a' : allocator) (l l' : List (List (node V)))
    (h : copy_buckets a l = (a', l', true)) :
    l'.flatten.map node.addr
      = (List.range (l.map List.length).sum).map (fun i => a.fresh + i) := by
  induction l generalizing a a' l' with
  | nil =>
    simp [copy_buckets] at h
    obtain ⟨rfl, rfl⟩ := h
    simp
  | cons y ys ih =>
    unfold copy_buckets at h
    split at h
    · rename_i a1 c hc
      split at h
      rename_i a2 more done hm
      simp only [Prod.mk.injEq] at h
      obtain ⟨rfl, rfl, rfl⟩ := h
      obtain ⟨_, h2, h3, _⟩ := copy_chain_done a a1 y c hc
      have h5 := ih a1 a2 more hm
      simp only [List.flatten_cons, List.map_append, h2, h5, h3, List.map_cons, List.sum_cons,
        List.range_add, List.map_map]
      congr 1
      apply List.map_congr_left
      intro i _
      simp; omega
    · simp at h

/-- The copy a returning `copy_from` makes of a well-formed table is well formed. -/
theorem well_formed_copy_from (P : policy K V) (a a' : allocator)
    (self ht t' : hashtable V) (hw : well_formed P ht)
    (h : copy_from a self ht = result.ok (a', t') ()) :
    well_formed P t' ∧ heap_ok a' t' := by
  obtain ⟨hp, hc, _⟩ := hw
  have hp' := chains_placed_copy_from P a a' self ht t' hp h
  have hc' := counted_copy_from a a' self ht t' hc h
  unfold copy_from at h
  split at h
  · rename_i a1 bs hb
    cases h
    refine ⟨⟨hp', hc', ?_⟩, ?_⟩
    · unfold distinct_nodes all_nodes
      simp only
      rw [copy_buckets_addrs a a' _ bs hb]
      apply List.Nodup.map _ (List.nodup_range _)
      intro i j hij
      simpa using hij
    · intro x hx
      exact ((copy_buckets_fresh a a' _ bs hb).2 x hx).2
  · cases h

/-! ## `resize`: the guards and the rehash loop -/

theorem resize_noop (P : policy K V) (t : hashtable V) (hint : Nat)
    (h : hint ≤ t.buckets_.length ∨ next_size P hint ≤ t.buckets_.length) :
    resize P t hint = result.ok t () := by
  unfold resize
  simp only
  by_cases h1 : hint ≤ t.buckets_.length
  · rw [if_pos h1]
  · rw [if_neg h1, if_pos (h.resolve_left h1)]

theorem bucket_count_resize_ok (P : policy K V) (t t' : hashtable V) (hint : Nat)
    (h : resize P t hint = result.ok t' ()) : t.buckets_.length ≤ t'.buckets_.length := by
  rcases resize_ok P t t' hint h with rfl | ⟨_, hlt, rfl⟩
  · exact Nat.le_refl _
  · simp; omega

theorem rehash_loop_of_node (l : List (List (node V))) (c : List (node V)) (hc : c ∈ l)
    (hne : c ≠ []) : rehash_loop l = none := by
  cases h : rehash_loop l with
  | none => rfl
  | some u => exact absurd (rehash_loop_some l h c hc) hne

/-- A growing `resize` of a table that holds a node reaches line 177. -/
theorem resize_of_node (P : policy K V) (t : hashtable V) (hint : Nat)
    (h1 : t.buckets_.length < hint) (h2 : t.buckets_.length < next_size P hint)
    (c : List (node V)) (hc : c ∈ t.buckets_) (hne : c ≠ []) :
    resize P t hint = result.undefined := by
  unfold resize
  simp only
  rw [if_neg (by omega), if_neg (by omega), rehash_loop_of_node _ c hc hne]

theorem nat_policy_lawful : lawful nat_policy where
  refl := by intro k; simp [nat_policy]
  symm := by intro k l h; simp [nat_policy] at h ⊢; exact h.symm
  trans := by intro k l m h1 h2; simp [nat_policy] at h1 h2 ⊢; exact h1.trans h2
  hash_eq := by intro k l h; simp [nat_policy] at h ⊢; exact h

theorem count_in_chain_congr (P : policy K V) (key : K) (l l' : List (node V))
    (h : l'.map node.val = l.map node.val) :
    count_in_chain P key l' = count_in_chain P key l := by
  induction l generalizing l' with
  | nil =>
    have : l' = [] := by simpa using h
    subst this; rfl
  | cons x xs ih =>
    cases l' with
    | nil => simp at h
    | cons y ys =>
      simp only [List.map_cons, List.cons.injEq] at h
      simp only [count_in_chain, h.1, ih ys h.2]

theorem getD_map_val (l l' : List (List (node V)))
    (h : l'.map (List.map node.val) = l.map (List.map node.val)) (b : Nat) :
    (l'.getD b []).map node.val = (l.getD b []).map node.val := by
  have h1 : (l'.map (List.map node.val))[b]? = (l.map (List.map node.val))[b]? := by rw [h]
  simp only [List.getElem?_map] at h1
  simp only [List.getD_eq_getElem?_getD]
  cases h2 : l'[b]? <;> cases h3 : l[b]? <;> simp_all

theorem count_of_map_val (P : policy K V) (t t' : hashtable V)
    (h : t'.buckets_.map (List.map node.val) = t.buckets_.map (List.map node.val)) (key : K) :
    (count P t' key).value = (count P t key).value := by
  have hlen : t'.buckets_.length = t.buckets_.length := by
    simpa using congrArg List.length h
  unfold count
  rw [hlen]
  cases hb : bkt_num_key P key t.buckets_.length with
  | none => rfl
  | some b =>
    simp only [result.value]
    rw [count_in_chain_congr P key _ _ (getD_map_val _ _ h b)]

/-! ## The claims -/

/-- C1, the code at the failing input.  From the empty table `insert_unique(0)` and
`insert_unique(1)` return and leave two buckets holding two values, none of them
equal to 2; `insert_unique(2)` then calls `resize(3)`, which grows to three buckets,
meets the node of bucket 0 and reaches line 177: the call returns nothing. -/
theorem insert_unique_reaches_line_177 :
    insert_unique nat_policy ⟨0, 8⟩ empty_table 0
        = result.ok (⟨1, 7⟩, ⟨[[⟨0, 0⟩], []], 1⟩) (some 0, true) ∧
      insert_unique nat_policy ⟨1, 7⟩ ⟨[[⟨0, 0⟩], []], 1⟩ 1
        = result.ok (⟨2, 6⟩, ⟨[[⟨0, 0⟩], [⟨1, 1⟩]], 2⟩) (some 1, true) ∧
      insert_unique nat_policy ⟨2, 6⟩ ⟨[[⟨0, 0⟩], [⟨1, 1⟩]], 2⟩ 2 = result.undefined := by
  refine ⟨by decide, by decide, by decide⟩

/-- C2, the code at the failing input.  Of three `insert_equal(4)` calls on the
empty table the first two return (two buckets, the chain of bucket 0 holding both
nodes); the third calls `resize(3)`, which reaches line 177 on that chain, and
returns nothing, so no table with `count(4) == 3` is produced. -/
theorem insert_equal_reaches_line_177 :
    insert_equal nat_policy ⟨0, 8⟩ empty_table 4
        = result.ok (⟨1, 7⟩, ⟨[[⟨0, 4⟩], []], 1⟩) (some 0) ∧
      insert_equal nat_policy ⟨1, 7⟩ ⟨[[⟨0, 4⟩], []], 1⟩ 4
        = result.ok (⟨2, 6⟩, ⟨[[⟨0, 4⟩, ⟨1, 4⟩], []], 2⟩) (some 1) ∧
      insert_equal nat_policy ⟨2, 6⟩ ⟨[[⟨0, 4⟩, ⟨1, 4⟩], []], 2⟩ 4 = result.undefined := by
  refine ⟨by decide, by decide, by decide⟩

/-- C3, counterexample: the table of two buckets holding 4 is reached from the empty
table by `insert_unique(4)`; the call `t.copy_from(t)` on it returns, and leaves no
bucket and `size() == 1`, which is not the sum of the chain lengths, 0. -/
theorem self_copy_keeps_the_count :
    reachable nat_policy ⟨[[⟨0, 4⟩], []], 1⟩ ∧
      copy_from_at ⟨1, 7⟩ [(⟨[[⟨0, 4⟩], []], 1⟩ : hashtable Nat)] 0 0
        = result.ok (⟨1, 7⟩, [⟨[], 1⟩]) () ∧
      (⟨[], 1⟩ : hashtable Nat).size
        ≠ ((⟨[], 1⟩ : hashtable Nat).buckets_.map List.length).sum :=
  ⟨reachable.insert_unique ⟨0, 8⟩ ⟨1, 7⟩ 4 (some 0, true) reachable.empty (by decide),
   by decide, by decide⟩

/-- C3, amended: in every table reachable from an empty table by calls of
`insert_unique`, `insert_equal`, `resize`, `clear` and `copy_from` that return, each
`copy_from` taking another table than the destination as its source, `size()` is the
sum of the chain lengths over all buckets. -/
theorem size_eq_sum_of_chain_lengths (P : policy K V) (t : hashtable V)
    (h : reachable P t) : t.size = (t.buckets_.map List.length).sum :=
  counted_of_reachable P t h

theorem size_eq_sum_of_chain_lengths_witness :
    reachable nat_policy ⟨[[], [⟨1, 7⟩, ⟨0, 5⟩]], 2⟩ ∧
      (⟨[[], [⟨1, 7⟩, ⟨0, 5⟩]], 2⟩ : hashtable Nat).size
        = ((⟨[[], [⟨1, 7⟩, ⟨0, 5⟩]], 2⟩ : hashtable Nat).buckets_.map List.length).sum :=
  have h1 : reachable nat_policy ⟨[[], [⟨0, 5⟩]], 1⟩ :=
    reachable.insert_unique ⟨0, 10⟩ ⟨1, 9⟩ 5 (some 0, true) reachable.empty (by decide)
  have hr : reachable nat_policy ⟨[[], [⟨1, 7⟩, ⟨0, 5⟩]], 2⟩ :=
    reachable.insert_equal ⟨1, 9⟩ ⟨2, 8⟩ 7 (some 1) h1 (by decide)
  ⟨hr, size_eq_sum_of_chain_lengths nat_policy _ hr⟩

/-- C4, the code at the failing input: in the table of two buckets holding 6 in
bucket 0 and 3 in bucket 1 every value lies in the bucket of its hash; `resize(3)`
makes it grow to three buckets, under which both values belong in bucket 0, but at
the head of old bucket 0 the loop reaches line 177 and returns nothing: no node is
placed under the new bucket count. -/
theorem resize_places_no_node :
    chains_placed nat_policy ⟨[[⟨0, 6⟩], [⟨1, 3⟩]], 2⟩ ∧
      next_size nat_policy 3 = 3 ∧
      bkt_num nat_policy 6 3 = some 0 ∧ bkt_num nat_policy 3 3 = some 0 ∧
      resize nat_policy ⟨[[⟨0, 6⟩], [⟨1, 3⟩]], 2⟩ 3 = result.undefined := by
  refine ⟨by decide, by decide, by decide, by decide, by decide⟩

/-- C5, the code at the failing input: the table of two buckets that holds the value
5 in bucket 1 is well formed, and `resize(3)` on it, which grows to three buckets,
reaches line 177 and returns nothing, so no table holding 5 is left. -/
theorem resize_reaches_line_177 :
    well_formed nat_policy ⟨[[], [⟨0, 5⟩]], 1⟩ ∧
      resize nat_policy ⟨[[], [⟨0, 5⟩]], 1⟩ 3 = result.undefined := by
  refine ⟨by decide, by decide⟩

/-- C6, the code at the failing input: `resize(5)` on a table of two buckets and
three values passes both guards (5 buckets are asked for), reaches line 177 at the
head of bucket 0 and returns nothing: there is no bucket count after the call. -/
theorem growing_resize_returns_nothing :
    next_size nat_policy 5 = 5 ∧
      resize nat_policy ⟨[[⟨0, 4⟩, ⟨1, 6⟩], [⟨2, 7⟩]], 3⟩ 5 = result.undefined := by
  refine ⟨by decide, by decide⟩

/-- C7: in a well-formed table, the iterator started at the first node of the first
non-empty bucket is, after `k < size()` applications of `operator++`, at the `k`-th
node of the table (buckets in index order, each chain from its head), and after
exactly `size()` applications at end; the nodes so visited are all `size()` nodes of
the table and no address occurs twice among them. -/
theorem iteration_visits_every_node_once (P : policy K V) (t : hashtable V)
    (hw : well_formed P t) :
    advance P t t.size (first_node t) = some none ∧
    (∀ k, k < t.size → ∃ x, (all_nodes t)[k]? = some x ∧
      advance P t k (first_node t) = some (some x.addr)) ∧
    (all_nodes t).length = t.size ∧
    ((all_nodes t).map node.addr).Nodup := by
  obtain ⟨hp, hc, hd⟩ := hw
  have hlen := length_all_nodes t hc
  refine ⟨?_, ?_, hlen, hd⟩
  · have := advance_first_node P t hp hd t.size (by unfold hashtable.size; omega)
    rw [this, List.drop_of_length_le (by unfold hashtable.size; omega)]
    rfl
  · intro k hk
    have hk' : k < (all_nodes t).length := by unfold hashtable.size at hk; omega
    refine ⟨(all_nodes t)[k], List.getElem?_eq_getElem hk', ?_⟩
    rw [advance_first_node P t hp hd k (by omega)]
    rw [List.head?_drop, List.getElem?_eq_getElem hk']
    rfl

theorem iteration_visits_every_node_once_witness :
    well_formed nat_policy ⟨[[⟨1, 3⟩], [], [⟨0, 5⟩, ⟨3, 8⟩]], 3⟩ ∧
      advance nat_policy ⟨[[⟨1, 3⟩], [], [⟨0, 5⟩, ⟨3, 8⟩]], 3⟩
        (⟨[[⟨1, 3⟩], [], [⟨0, 5⟩, ⟨3, 8⟩]], 3⟩ : hashtable Nat).size
        (first_node ⟨[[⟨1, 3⟩], [], [⟨0, 5⟩, ⟨3, 8⟩]], 3⟩) = some none :=
  ⟨by decide,
   (iteration_visits_every_node_once nat_policy ⟨[[⟨1, 3⟩], [], [⟨0, 5⟩, ⟨3, 8⟩]], 3⟩
      (by decide)).1⟩

/-- C8: on a well-formed table with `bucket_count() > 0`, with `key_equal` an
equivalence relation under which equal keys have equal hashes, `find(k)` returns and
leaves the table as it was; the iterator returned is end exactly when no value
stored anywhere in the table has a key equal to `k`, and otherwise it is at the first
node, in chain order, of bucket `hash(k) mod bucket_count()` whose key equals `k`. -/
theorem find_returns_first_match (P : policy K V) (hP : lawful P) (t : hashtable V)
    (hw : well_formed P t) (hb : 0 < t.bucket_count) (k : K) :
    ∃ it, find P t k = result.ok t it ∧
      (it = none ↔ ∀ x ∈ all_nodes t, P.key_equal (P.extract_key x.val) k = false) ∧
      (∀ p, it = some p → ∃ pre x post,
        t.buckets_.getD (P.hash k % t.bucket_count) [] = pre ++ x :: post ∧
        (∀ y ∈ pre, P.key_equal (P.extract_key y.val) k = false) ∧
        P.key_equal (P.extract_key x.val) k = true ∧ x.addr = p) :=
  find_ok P hP t hw.1 hb k

theorem find_returns_first_match_witness :
    lawful nat_policy ∧ well_formed nat_policy ⟨[[⟨1, 3⟩], [], [⟨0, 5⟩, ⟨3, 8⟩]], 3⟩ ∧
      0 < (⟨[[⟨1, 3⟩], [], [⟨0, 5⟩, ⟨3, 8⟩]], 3⟩ : hashtable Nat).bucket_count ∧
      ∃ it, find nat_policy ⟨[[⟨1, 3⟩], [], [⟨0, 5⟩, ⟨3, 8⟩]], 3⟩ 8
        = result.ok ⟨[[⟨1, 3⟩], [], [⟨0, 5⟩, ⟨3, 8⟩]], 3⟩ it :=
  ⟨nat_policy_lawful, by decide, by decide,
   match find_returns_first_match nat_policy nat_policy_lawful
      ⟨[[⟨1, 3⟩], [], [⟨0, 5⟩, ⟨3, 8⟩]], 3⟩ (by decide) (by decide) 8 with
   | ⟨it, h, _⟩ => ⟨it, h⟩⟩

/-- A `copy_from` whose source is another object than the destination is lines
267-288 on the source as passed, and writes the destination only. -/
theorem copy_from_at_of_ne (a : allocator) (tables : List (hashtable V)) (dst src : Nat)
    (self t : hashtable V) (hd : tables[dst]? = some self) (hs : tables[src]? = some t)
    (hne : dst ≠ src) :
    copy_from_at a tables dst src =
      match copy_from a self t with
      | result.ok (a', t') _ => result.ok (a', tables.set dst t') ()
      | result.throws (a', t') => result.throws (a', tables.set dst t')
      | result.undefined => result.undefined := by
  unfold copy_from_at
  simp only [hd, List.getElem?_set_ne hne, hs, List.set_set]

/-- The call `t.copy_from(t)` returns and leaves the table without buckets, its count
as it was. -/
theorem copy_from_at_self (a : allocator) (tables : List (hashtable V)) (dst : Nat)
    (self : hashtable V) (hd : tables[dst]? = some self) :
    copy_from_at a tables dst dst
      = result.ok (a, tables.set dst { buckets_ := [], num_elements_ := self.num_elements_ })
          () := by
  have hlt : dst < tables.length := by
    rcases List.getElem?_eq_some.mp hd with ⟨hl, _⟩
    exact hl
  unfold copy_from_at
  simp only [hd, List.getElem?_set_self hlt, copy_from, copy_buckets, List.set_set]

/-- When every `new_node` returns, lines 267-288 build a table with the bucket count
and the size of the source they read, the same values in every chain, in order, and
the same counts, out of new nodes. -/
theorem copy_from_ok (P : policy K V) (a : allocator)
    (self t : hashtable V) (hq : (t.buckets_.map List.length).sum ≤ a.quota) :
    ∃ a' t', copy_from a self t = result.ok (a', t') () ∧
      t'.bucket_count = t.bucket_count ∧ t'.size = t.size ∧
      t'.buckets_.map (List.map node.val) = t.buckets_.map (List.map node.val) ∧
      (∀ k, (count P t' k).value = (count P t k).value) ∧
      (∀ x ∈ all_nodes t', a.fresh ≤ x.addr) := by
  obtain ⟨a', bs, hb⟩ := copy_buckets_enough a t.buckets_ hq
  have hv := (copy_buckets_done a a' _ bs hb).1
  refine ⟨a', { buckets_ := bs, num_elements_ := t.num_elements_ }, ?_, ?_, rfl, hv, ?_, ?_⟩
  · simp only [copy_from, hb]
  · simpa [hashtable.bucket_count] using congrArg List.length hv
  · intro k
    exact count_of_map_val P t _ hv k
  · intro x hx
    exact ((copy_buckets_fresh a a' _ bs hb).2 x hx).1

/-- C9, counterexample: `t.copy_from(t)` on the table of two buckets holding 5 returns,
and the table, which is the source as well as the copy, is left with no bucket: its
bucket count is 0, not 2, it holds no chain, and the source is not what it was. -/
theorem self_copy_empties_the_source :
    copy_from_at ⟨5, 9⟩ [(⟨[[], [⟨0, 5⟩]], 1⟩ : hashtable Nat)] 0 0
        = result.ok (⟨5, 9⟩, [⟨[], 1⟩]) () ∧
      (⟨[], 1⟩ : hashtable Nat).bucket_count
        ≠ (⟨[[], [⟨0, 5⟩]], 1⟩ : hashtable Nat).bucket_count ∧
      (⟨[], 1⟩ : hashtable Nat) ≠ ⟨[[], [⟨0, 5⟩]], 1⟩ := by
  refine ⟨by decide, by decide, by decide⟩

/-- C9, amended: for every source table `t` that is another object than the
destination, when every `new_node` returns (the allocator can build as many nodes as
`t` holds), `copy_from(t)` returns; the destination then has the bucket count and the
size of `t` and, for every bucket index `i`, a chain holding the values of chain `i`
of `t` in the same order, made of new nodes; `count(k)` gives the same for the copy
as for `t`, for every key `k`; and `t` is as it was. -/
theorem copy_from_copies_every_chain (P : policy K V) (a : allocator)
    (tables : List (hashtable V)) (dst src : Nat) (self t : hashtable V)
    (hd : tables[dst]? = some self) (hs : tables[src]? = some t) (hne : dst ≠ src)
    (hq : (t.buckets_.map List.length).sum ≤ a.quota) :
    ∃ a' t', copy_from_at a tables dst src = result.ok (a', tables.set dst t') () ∧
      (tables.set dst t')[src]? = some t ∧ (tables.set dst t')[dst]? = some t' ∧
      t'.bucket_count = t.bucket_count ∧ t'.size = t.size ∧
      t'.buckets_.map (List.map node.val) = t.buckets_.map (List.map node.val) ∧
      (∀ k, (count P t' k).value = (count P t k).value) ∧
      (∀ x ∈ all_nodes t', a.fresh ≤ x.addr) := by
  obtain ⟨a', t', h, h1, h2, h3, h4, h5⟩ := copy_from_ok P a self t hq
  have hlt : dst < tables.length := by
    rcases List.getElem?_eq_some.mp hd with ⟨hl, _⟩
    exact hl
  refine ⟨a', t', ?_, ?_, ?_, h1, h2, h3, h4, h5⟩
  · unfold copy_from_at
    simp only [hd, List.getElem?_set_ne hne, hs, h, List.set_set]
  · rw [List.getElem?_set_ne hne, hs]
  · rw [List.getElem?_set_self hlt]

theorem copy_from_copies_every_chain_witness :
    ([empty_table, ⟨[[⟨1, 4⟩], [⟨0, 5⟩, ⟨3, 7⟩]], 3⟩] : List (hashtable Nat))[0]?
        = some empty_table ∧
      ([empty_table, ⟨[[⟨1, 4⟩], [⟨0, 5⟩, ⟨3, 7⟩]], 3⟩] : List (hashtable Nat))[1]?
        = some ⟨[[⟨1, 4⟩], [⟨0, 5⟩, ⟨3, 7⟩]], 3⟩ ∧
      (0 : Nat) ≠ 1 ∧
      ((⟨[[⟨1, 4⟩], [⟨0, 5⟩, ⟨3, 7⟩]], 3⟩ : hashtable Nat).buckets_.map List.length).sum
        ≤ (⟨10, 3⟩ : allocator).quota ∧
      ∃ a' t', copy_from_at ⟨10, 3⟩
          [empty_table, ⟨[[⟨1, 4⟩], [⟨0, 5⟩, ⟨3, 7⟩]], 3⟩] 0 1
        = result.ok (a',
            [empty_table, ⟨[[⟨1, 4⟩], [⟨0, 5⟩, ⟨3, 7⟩]], 3⟩].set 0 t') () ∧
        t'.bucket_count = 2 ∧ t'.size = 3 :=
  ⟨rfl, rfl, by decide, by decide,
   match copy_from_copies_every_chain nat_policy ⟨10, 3⟩
      [empty_table, ⟨[[⟨1, 4⟩], [⟨0, 5⟩, ⟨3, 7⟩]], 3⟩] 0 1 empty_table
      ⟨[[⟨1, 4⟩], [⟨0, 5⟩, ⟨3, 7⟩]], 3⟩ rfl rfl (by decide) (by decide) with
   | ⟨a', t', h, _, _, hb, hs, _⟩ => ⟨a', t', h, hb, hs⟩⟩

/-- C10: when a `new_node` throws during `copy_from(t)`, at whichever of the nodes to
build (the allocator builds fewer nodes than `t` holds), the exception leaves
`copy_from` and the destination keeps the bucket count of `t` with `size() == 0` and
every bucket head null: no node of the partly built copy is linked. -/
theorem copy_from_failure_leaves_empty_table (a : allocator) (self t : hashtable V)
    (hq : a.quota < (t.buckets_.map List.length).sum) :
    ∃ a' t', copy_from a self t = result.throws (a', t') ∧
      t'.size = 0 ∧ (∀ c ∈ t'.buckets_, c = []) ∧ all_nodes t' = [] ∧
      t'.bucket_count = t.bucket_count := by
  obtain ⟨a', bs, hb, hl⟩ := copy_buckets_short a t.buckets_ hq
  have he : ∀ c ∈ (clear { buckets_ := bs, num_elements_ := self.num_elements_ }).buckets_,
      c = [] := by
    intro c hc
    simp [clear] at hc
    exact hc.2
  refine ⟨a', clear { buckets_ := bs, num_elements_ := self.num_elements_ }, ?_, rfl, he, ?_, ?_⟩
  · simp only [copy_from, hb]
  · unfold all_nodes
    rw [List.flatten_eq_nil_iff]
    exact he
  · simp [clear, hashtable.bucket_count, hl]

theorem copy_from_failure_leaves_empty_table_witness :
    (⟨10, 2⟩ : allocator).quota
        < ((⟨[[⟨1, 4⟩], [⟨0, 5⟩, ⟨3, 7⟩]], 3⟩ : hashtable Nat).buckets_.map List.length).sum ∧
      ∃ a' t', copy_from ⟨10, 2⟩ ⟨[[⟨7, 1⟩]], 1⟩ ⟨[[⟨1, 4⟩], [⟨0, 5⟩, ⟨3, 7⟩]], 3⟩
        = result.throws (a', t') ∧ t'.size = 0 ∧ all_nodes t' = [] :=
  ⟨by decide,
   match copy_from_failure_leaves_empty_table ⟨10, 2⟩ ⟨[[⟨7, 1⟩]], 1⟩
      ⟨[[⟨1, 4⟩], [⟨0, 5⟩, ⟨3, 7⟩]], 3⟩ (by decide) with
   | ⟨a', t', h, hs, _, hn, _⟩ => ⟨a', t', h, hs, hn⟩⟩

/-! ## Reachable tables are placed; inserts after `resize` -/

theorem chains_placed_of_reachable (P : policy K V) (t : hashtable V) (h : reachable P t) :
    chains_placed P t := by
  induction h with
  | empty => exact chains_placed_of_empty P _ (by simp [empty_table])
  | init n =>
    apply chains_placed_of_empty
    intro c hc
    exact List.eq_of_mem_replicate hc
  | insert_unique a a' obj r _ h ih => exact chains_placed_insert_unique P a a' _ _ obj r ih h
  | insert_equal a a' obj r _ h ih => exact chains_placed_insert_equal P a a' _ _ obj r ih h
  | resize hint _ h ih => exact chains_placed_resize P _ _ hint ih h
  | clear _ _ => exact chains_placed_clear P _
  | copy_from a a' _ _ h _ ih => exact chains_placed_copy_from P a a' _ _ _ ih h

theorem new_node_none (a : allocator) (obj : V) (hq : a.quota = 0) : new_node a obj = none := by
  unfold new_node
  rw [if_pos hq]

theorem new_node_pos (a : allocator) (obj : V) (hq : 0 < a.quota) :
    new_node a obj
      = some ({ fresh := a.fresh + 1, quota := a.quota - 1 }, { addr := a.fresh, val := obj }) := by
  unfold new_node
  rw [if_neg (by omega)]

theorem size_resize_ok (P : policy K V) (t t' : hashtable V) (hint : Nat)
    (h : resize P t hint = result.ok t' ()) : t'.num_elements_ = t.num_elements_ := by
  rcases resize_ok P t t' hint h with rfl | ⟨_, _, rfl⟩ <;> rfl

theorem insert_equal_noresize_throws (P : policy K V) (a : allocator) (t : hashtable V)
    (obj : V) (hq : a.quota = 0) (hb : 0 < t.buckets_.length) :
    insert_equal_noresize P a t obj = result.throws (a, t) := by
  unfold insert_equal_noresize bkt_num
  rw [bkt_num_key_pos P _ _ hb]
  simp only [new_node_none a obj hq]
  split <;> rfl

theorem insert_unique_noresize_throws (P : policy K V) (a : allocator) (t : hashtable V)
    (obj : V) (hq : a.quota = 0) (hb : 0 < t.buckets_.length)
    (hn : find_in_chain P (P.extract_key obj)
      (t.buckets_.getD (P.hash (P.extract_key obj) % t.buckets_.length) []) = none) :
    insert_unique_noresize P a t obj = result.throws (a, t) := by
  unfold insert_unique_noresize bkt_num
  rw [bkt_num_key_pos P _ _ hb]
  simp only [hn, new_node_none a obj hq]

theorem insert_unique_noresize_present (P : policy K V) (hP : lawful P) (a : allocator)
    (t : hashtable V) (hp : chains_placed P t) (v : V) (x : node V) (hx : x ∈ all_nodes t)
    (he : P.key_equal (P.extract_key x.val) (P.extract_key v) = true) :
    ∃ y, y ∈ all_nodes t ∧ P.key_equal (P.extract_key y.val) (P.extract_key v) = true ∧
      insert_unique_noresize P a t v = result.ok (a, t) (some y.addr, false) := by
  have hmem := mem_bucket_of_key_equal P hP t hp _ x hx he
  have hb : 0 < t.buckets_.length := by
    obtain ⟨i, _⟩ := (mem_all_nodes t x).mp hx
    exact Nat.lt_of_le_of_lt (Nat.zero_le _) i.isLt
  cases hf : find_in_chain P (P.extract_key v)
      (t.buckets_.getD (P.hash (P.extract_key v) % t.buckets_.length) []) with
  | none =>
    have := (find_in_chain_none P _ _).mp hf x hmem
    rw [he] at this
    cases this
  | some y =>
    obtain ⟨pre, post, h1, _, h3⟩ := find_in_chain_some P _ _ y hf
    refine ⟨y, mem_all_nodes_of_getD t _ y (by rw [h1]; simp), h3, ?_⟩
    unfold insert_unique_noresize bkt_num
    rw [bkt_num_key_pos P _ _ hb]
    simp only [hf]

/-! ## The claims, continued -/

/-- C11, counterexample: on the table without buckets, with an allocator that throws
at once, `insert_unique(5)` and `insert_equal(5)` propagate the failure after their
`resize(1)` has given the table two buckets: `bucket_count()` is 2, not 0 as before
the call. -/
theorem construction_failure_after_growth :
    insert_unique nat_policy ⟨0, 0⟩ empty_table 5
        = result.throws (⟨0, 0⟩, ⟨[[], []], 0⟩) ∧
      insert_equal nat_policy ⟨0, 0⟩ empty_table 5
        = result.throws (⟨0, 0⟩, ⟨[[], []], 0⟩) ∧
      (⟨[[], []], 0⟩ : hashtable Nat).bucket_count
        ≠ (empty_table : hashtable Nat).bucket_count := by
  refine ⟨by decide, by decide, by decide⟩

/-- C11, amended: when `new_node` throws during `insert_equal(v)`, or during an
`insert_unique(v)` whose scan found no equal key, the failure is propagated, no node
is linked and the table is the one the preceding `resize(size() + 1)` left: `size()`
is as before the call, and the whole table is as before the call when
`size() < bucket_count()`.  `insert_equal_noresize(v)`, which does not resize,
propagates the failure and leaves the table as it was. -/
theorem construction_failure_leaves_resized_table (P : policy K V) (a : allocator)
    (t t1 : hashtable V) (obj : V) (hq : a.quota = 0)
    (hr : resize P t (t.num_elements_ + 1) = result.ok t1 ()) (hb : 0 < t1.bucket_count) :
    insert_equal P a t obj = result.throws (a, t1) ∧
    (find_in_chain P (P.extract_key obj)
        (t1.buckets_.getD (P.hash (P.extract_key obj) % t1.buckets_.length) []) = none →
      insert_unique P a t obj = result.throws (a, t1)) ∧
    t1.size = t.size ∧ (t.size < t.bucket_count → t1 = t) ∧
    insert_equal_noresize P a t1 obj = result.throws (a, t1) := by
  refine ⟨?_, ?_, size_resize_ok P t t1 _ hr, ?_,
    insert_equal_noresize_throws P a t1 obj hq hb⟩
  · unfold insert_equal
    rw [hr]
    exact insert_equal_noresize_throws P a t1 obj hq hb
  · intro hn
    unfold insert_unique
    rw [hr]
    exact insert_unique_noresize_throws P a t1 obj hq hb hn
  · intro hlt
    have := resize_noop P t (t.num_elements_ + 1) (Or.inl hlt)
    rw [this] at hr
    cases hr
    rfl

theorem construction_failure_leaves_resized_table_witness :
    (⟨3, 0⟩ : allocator).quota = 0 ∧
      resize nat_policy ⟨[[], [⟨0, 5⟩]], 1⟩ 2 = result.ok ⟨[[], [⟨0, 5⟩]], 1⟩ () ∧
      0 < (⟨[[], [⟨0, 5⟩]], 1⟩ : hashtable Nat).bucket_count ∧
      insert_equal nat_policy ⟨3, 0⟩ ⟨[[], [⟨0, 5⟩]], 1⟩ 5
        = result.throws (⟨3, 0⟩, ⟨[[], [⟨0, 5⟩]], 1⟩) :=
  ⟨rfl, by decide, by decide,
   (construction_failure_leaves_resized_table nat_policy ⟨3, 0⟩ ⟨[[], [⟨0, 5⟩]], 1⟩
      ⟨[[], [⟨0, 5⟩]], 1⟩ 5 rfl (by decide) (by decide)).1⟩

/-- C12, the code at the failing input: the table of two buckets holding 0 and 1 is
reached from the empty table by two `insert_unique` calls and holds a value equal to
1; `insert_unique(1)` calls `resize(3)` before it scans for that value, the resize
grows, reaches line 177 at the head of bucket 0, and the call returns nothing: no
`false`, no iterator to the entry. -/
theorem insert_unique_of_present_key_reaches_line_177 :
    reachable nat_policy ⟨[[⟨0, 0⟩], [⟨1, 1⟩]], 2⟩ ∧
      (⟨1, 1⟩ : node Nat) ∈ all_nodes ⟨[[⟨0, 0⟩], [⟨1, 1⟩]], 2⟩ ∧
      insert_unique nat_policy ⟨2, 6⟩ ⟨[[⟨0, 0⟩], [⟨1, 1⟩]], 2⟩ 1 = result.undefined := by
  have h1 : reachable nat_policy ⟨[[⟨0, 0⟩], []], 1⟩ :=
    reachable.insert_unique ⟨0, 8⟩ ⟨1, 7⟩ 0 (some 0, true) reachable.empty (by decide)
  have h2 : reachable nat_policy ⟨[[⟨0, 0⟩], [⟨1, 1⟩]], 2⟩ :=
    reachable.insert_unique ⟨1, 7⟩ ⟨2, 6⟩ 1 (some 1, true) h1 (by decide)
  exact ⟨h2, by decide, by decide⟩

/-- On a reachable table that holds a value key-equal to `v`
(`key_equal` an equivalence relation under which equal keys have equal hashes),
`insert_unique_noresize(v)` returns `false` with an iterator to a stored entry whose
key equals that of `v` and leaves the table and the allocator as they were; so does
`insert_unique(v)` when its `resize(size() + 1)` is a no-op, that is when
`size() < bucket_count()` or `next_prime(size() + 1) <= bucket_count()`. -/
theorem insert_unique_of_present_key (P : policy K V) (hP : lawful P) (a : allocator)
    (t : hashtable V) (hr : reachable P t) (v : V) (x : node V) (hx : x ∈ all_nodes t)
    (he : P.key_equal (P.extract_key x.val) (P.extract_key v) = true) :
    (∃ y, y ∈ all_nodes t ∧ P.key_equal (P.extract_key y.val) (P.extract_key v) = true ∧
      insert_unique_noresize P a t v = result.ok (a, t) (some y.addr, false)) ∧
    (t.size < t.bucket_count ∨ next_size P (t.size + 1) ≤ t.bucket_count →
      ∃ y, y ∈ all_nodes t ∧ P.key_equal (P.extract_key y.val) (P.extract_key v) = true ∧
        insert_unique P a t v = result.ok (a, t) (some y.addr, false)) := by
  have hp := chains_placed_of_reachable P t hr
  obtain ⟨y, hy, hye, hi⟩ := insert_unique_noresize_present P hP a t hp v x hx he
  refine ⟨⟨y, hy, hye, hi⟩, ?_⟩
  intro hn
  refine ⟨y, hy, hye, ?_⟩
  unfold insert_unique
  rw [resize_noop P t (t.num_elements_ + 1) hn]
  exact hi

theorem insert_unique_of_present_key_witness :
    lawful nat_policy ∧ reachable nat_policy ⟨[[⟨0, 0⟩], []], 1⟩ ∧
      (⟨0, 0⟩ : node Nat) ∈ all_nodes ⟨[[⟨0, 0⟩], []], 1⟩ ∧
      nat_policy.key_equal (nat_policy.extract_key (⟨0, 0⟩ : node Nat).val)
        (nat_policy.extract_key 0) = true ∧
      ∃ y : node Nat, insert_unique_noresize nat_policy ⟨1, 7⟩ ⟨[[⟨0, 0⟩], []], 1⟩ 0
        = result.ok (⟨1, 7⟩, ⟨[[⟨0, 0⟩], []], 1⟩) (some y.addr, false) :=
  have h1 : reachable nat_policy ⟨[[⟨0, 0⟩], []], 1⟩ :=
    reachable.insert_unique ⟨0, 8⟩ ⟨1, 7⟩ 0 (some 0, true) reachable.empty (by decide)
  ⟨nat_policy_lawful, h1, by decide, by decide,
   match (insert_unique_of_present_key nat_policy nat_policy_lawful ⟨1, 7⟩
      ⟨[[⟨0, 0⟩], []], 1⟩ h1 0 ⟨0, 0⟩ (by decide) (by decide)).1 with
   | ⟨y, _, _, h⟩ => ⟨y, h⟩⟩

/-- C13, counterexample: after `clear()` the table without buckets still has none,
and `find(5)` and `count(5)` on it compute `hash(5) % 0`: they return neither the end
iterator nor 0. -/
theorem find_after_clear_without_buckets :
    clear (empty_table : hashtable Nat) = empty_table ∧
      find nat_policy (clear empty_table) 5 = result.undefined ∧
      count nat_policy (clear empty_table) 5 = result.undefined := by
  refine ⟨by decide, by decide, by decide⟩

/-- C13, amended: for every table `clear()` leaves `size() == 0`, every bucket head
null and `bucket_count()` as it was; afterwards, when `bucket_count() > 0`, `find(k)`
is the end iterator and `count(k) == 0` for every key `k`. -/
theorem clear_empties_every_chain (P : policy K V) (t : hashtable V) :
    (clear t).size = 0 ∧ (∀ c ∈ (clear t).buckets_, c = []) ∧
    (clear t).bucket_count = t.bucket_count ∧
    (0 < t.bucket_count → ∀ k, find P (clear t) k = result.ok (clear t) none ∧
      count P (clear t) k = result.ok (clear t) 0) := by
  have he : ∀ c ∈ (clear t).buckets_, c = [] := by
    intro c hc
    simp [clear] at hc
    exact hc.2
  have hl : (clear t).buckets_.length = t.buckets_.length := by simp [clear]
  refine ⟨rfl, he, hl, ?_⟩
  intro hb k
  have hb' : 0 < (clear t).buckets_.length := by rw [hl]; exact hb
  have hc : (clear t).buckets_.getD (P.hash k % (clear t).buckets_.length) [] = [] := by
    rw [List.getD_eq_getElem?_getD]
    cases hg : (clear t).buckets_[P.hash k % (clear t).buckets_.length]? with
    | none => rfl
    | some c => exact he c (List.getElem?_mem hg)
  unfold find count
  rw [bkt_num_key_pos P k _ hb']
  simp only [hc, find_in_chain, count_in_chain, Option.map_none']
  trivial

theorem clear_empties_every_chain_witness :
    0 < (⟨[[⟨1, 4⟩], [⟨0, 5⟩, ⟨3, 7⟩]], 3⟩ : hashtable Nat).bucket_count ∧
      find nat_policy (clear ⟨[[⟨1, 4⟩], [⟨0, 5⟩, ⟨3, 7⟩]], 3⟩) 5
        = result.ok (clear ⟨[[⟨1, 4⟩], [⟨0, 5⟩, ⟨3, 7⟩]], 3⟩) none :=
  ⟨by decide,
   ((clear_empties_every_chain nat_policy ⟨[[⟨1, 4⟩], [⟨0, 5⟩, ⟨3, 7⟩]], 3⟩).2.2.2
      (by decide) 5).1⟩

/-! ## `count` -/

theorem count_in_chain_eq_countP (P : policy K V) (key : K) (l : List (node V)) :
    count_in_chain P key l = l.countP (fun x => P.key_equal (P.extract_key x.val) key) := by
  induction l with
  | nil => rfl
  | cons x xs ih =>
    unfold count_in_chain
    by_cases hx : P.key_equal (P.extract_key x.val) key = true
    · rw [if_pos hx, List.countP_cons, if_pos hx, ih]
    · rw [if_neg hx, List.countP_cons, if_neg hx, ih]
      rfl

theorem countP_of_all_false (p : node V → Bool) (l : List (node V))
    (h : ∀ x ∈ l, p x = false) : l.countP p = 0 := by
  rw [List.countP_eq_zero]
  intro x hx
  simp [h x hx]

theorem mem_flatten_getD (l : List (List (node V))) (x : node V) (hx : x ∈ l.flatten) :
    ∃ i, x ∈ l.getD i [] := by
  obtain ⟨c, hc, hxc⟩ := List.mem_flatten.mp hx
  obtain ⟨i, hi, rfl⟩ := List.mem_iff_getElem.mp hc
  exact ⟨i, by simpa [List.getD_eq_getElem?_getD, List.getElem?_eq_getElem hi] using hxc⟩

/-- When only bucket `b` holds nodes that satisfy `p`, counting them over the whole
table is counting them in that bucket. -/
theorem countP_flatten_single (p : node V → Bool) (l : List (List (node V))) (b : Nat)
    (h : ∀ i, i ≠ b → ∀ x ∈ l.getD i [], p x = false) :
    l.flatten.countP p = (l.getD b []).countP p := by
  induction l generalizing b with
  | nil => simp
  | cons c cs ih =>
    rw [List.flatten_cons, List.countP_append]
    cases b with
    | zero =>
      have hz : cs.flatten.countP p = 0 := by
        apply countP_of_all_false
        intro x hx
        obtain ⟨i, hi⟩ := mem_flatten_getD cs x hx
        exact h (i + 1) (by omega) x (by simpa using hi)
      simp [hz]
    | succ b' =>
      have hz : c.countP p = 0 := by
        apply countP_of_all_false
        intro x hx
        exact h 0 (by omega) x (by simpa using hx)
      have := ih b' (fun i hi x hx => h (i + 1) (by omega) x (by simpa using hx))
      simp [hz, this]

theorem countP_all_nodes (P : policy K V) (hP : lawful P) (t : hashtable V)
    (hp : chains_placed P t) (key : K) :
    (all_nodes t).countP (fun x => P.key_equal (P.extract_key x.val) key)
      = (t.buckets_.getD (P.hash key % t.buckets_.length) []).countP
          (fun x => P.key_equal (P.extract_key x.val) key) := by
  unfold all_nodes
  apply countP_flatten_single
  intro i hi x hx
  by_contra hne
  have he : P.key_equal (P.extract_key x.val) key = true := by simpa using hne
  have h1 := (chains_placed_iff P t).mp hp i x hx
  rw [hP.hash_eq _ _ he] at h1
  exact hi h1.symm

theorem find_in_chain_isSome (P : policy K V) (key : K) (l : List (node V)) :
    (∃ x, find_in_chain P key l = some x) ↔
      0 < l.countP (fun x => P.key_equal (P.extract_key x.val) key) := by
  rw [List.countP_pos_iff]
  constructor
  · rintro ⟨x, hx⟩
    obtain ⟨pre, post, rfl, _, h3⟩ := find_in_chain_some P key l x hx
    exact ⟨x, by simp, h3⟩
  · rintro ⟨x, hx, hxe⟩
    cases hf : find_in_chain P key l with
    | some y => exact ⟨y, rfl⟩
    | none =>
      have := (find_in_chain_none P key l).mp hf x hx
      rw [this] at hxe
      cases hxe

theorem count_ok (P : policy K V) (hP : lawful P) (t : hashtable V)
    (hp : chains_placed P t) (hb : 0 < t.buckets_.length) (key : K) :
    count P t key = result.ok t
        ((all_nodes t).countP (fun x => P.key_equal (P.extract_key x.val) key)) ∧
      (0 < (all_nodes t).countP (fun x => P.key_equal (P.extract_key x.val) key) ↔
        ∃ p, find P t key = result.ok t (some p)) := by
  constructor
  · unfold count
    rw [bkt_num_key_pos P key _ hb]
    simp only
    rw [count_in_chain_eq_countP, countP_all_nodes P hP t hp key]
  · rw [countP_all_nodes P hP t hp key, ← find_in_chain_isSome]
    unfold find
    rw [bkt_num_key_pos P key _ hb]
    constructor
    · rintro ⟨x, hx⟩
      exact ⟨x.addr, by simp only [hx, Option.map_some']⟩
    · rintro ⟨p, hp'⟩
      simp only [result.ok.injEq, true_and] at hp'
      obtain ⟨x, hx, _⟩ := Option.map_eq_some'.mp hp'
      exact ⟨x, hx⟩

/-- C14: on a well-formed table with `bucket_count() > 0`, with `key_equal` an
equivalence relation under which equal keys have equal hashes, `count(k)` returns the
number of values stored in the whole table whose key equals `k` and leaves the table
as it was; that number is positive exactly when `find(k)` is not the end iterator. -/
theorem count_counts_equal_keys (P : policy K V) (hP : lawful P) (t : hashtable V)
    (hw : well_formed P t) (hb : 0 < t.bucket_count) (k : K) :
    ∃ n, count P t k = result.ok t n ∧
      n = (all_nodes t).countP (fun x => P.key_equal (P.extract_key x.val) k) ∧
      (0 < n ↔ ∃ p, find P t k = result.ok t (some p)) ∧
      (n = 0 ↔ find P t k = result.ok t none) := by
  obtain ⟨h1, h2⟩ := count_ok P hP t hw.1 hb k
  refine ⟨_, h1, rfl, h2, ?_⟩
  obtain ⟨it, hf, _, _⟩ := find_ok P hP t hw.1 hb k
  rw [hf] at h2 ⊢
  cases it with
  | none =>
    simp only [result.ok.injEq, true_and, exists_false, iff_false, reduceCtorEq] at h2
    simp only [iff_true]
    omega
  | some p =>
    have : 0 < (all_nodes t).countP (fun x => P.key_equal (P.extract_key x.val) k) :=
      h2.mpr ⟨p, rfl⟩
    simp only [result.ok.injEq, true_and, reduceCtorEq, iff_false]
    omega

theorem count_counts_equal_keys_witness :
    lawful nat_policy ∧ well_formed nat_policy ⟨[[⟨1, 3⟩], [], [⟨0, 5⟩, ⟨3, 5⟩]], 3⟩ ∧
      0 < (⟨[[⟨1, 3⟩], [], [⟨0, 5⟩, ⟨3, 5⟩]], 3⟩ : hashtable Nat).bucket_count ∧
      ∃ n, count nat_policy ⟨[[⟨1, 3⟩], [], [⟨0, 5⟩, ⟨3, 5⟩]], 3⟩ 5
        = result.ok ⟨[[⟨1, 3⟩], [], [⟨0, 5⟩, ⟨3, 5⟩]], 3⟩ n ∧ 0 < n :=
  ⟨nat_policy_lawful, by decide, by decide,
   match count_counts_equal_keys nat_policy nat_policy_lawful
      ⟨[[⟨1, 3⟩], [], [⟨0, 5⟩, ⟨3, 5⟩]], 3⟩ (by decide) (by decide) 5 with
   | ⟨n, h, _, hpos, _⟩ => ⟨n, h, hpos.mpr ⟨0, by decide⟩⟩⟩

/-! ## `insert_equal_noresize` -/

theorem link_after_at_first_match (P : policy K V) (obj : V) (tmp : node V)
    (l : List (node V)) (cur : node V)
    (h : find_in_chain P (P.extract_key obj) l = some cur) :
    ∃ pre rest, l = pre ++ cur :: rest ∧
      (∀ y ∈ pre, P.key_equal (P.extract_key y.val) (P.extract_key obj) = false) ∧
      P.key_equal (P.extract_key cur.val) (P.extract_key obj) = true ∧
      link_after P obj tmp l = pre ++ cur :: tmp :: rest := by
  induction l with
  | nil => simp [find_in_chain] at h
  | cons y ys ih =>
    unfold find_in_chain at h
    split at h
    · rename_i hy
      cases h
      refine ⟨[], ys, rfl, by simp, hy, ?_⟩
      simp only [link_after, hy, if_true, List.nil_append]
    · rename_i hy
      obtain ⟨pre, rest, h1, h2, h3, h4⟩ := ih h
      refine ⟨y :: pre, rest, by rw [h1]; rfl, ?_, h3, ?_⟩
      · intro z hz
        rcases List.mem_cons.mp hz with rfl | hz
        · simpa using hy
        · exact h2 z hz
      · simp only [link_after, hy, h4, List.cons_append]
        rfl

/-- C15, counterexample: on the table without buckets `insert_equal_noresize(5)`
computes `hash(5) % 0` and adds nothing; with an allocator that throws it propagates
the failure and leaves the table with the one node it had. -/
theorem insert_equal_noresize_adds_no_node :
    insert_equal_noresize nat_policy ⟨0, 8⟩ empty_table 5 = result.undefined ∧
      insert_equal_noresize nat_policy ⟨1, 0⟩ ⟨[[], [⟨0, 5⟩]], 1⟩ 5
        = result.throws (⟨1, 0⟩, ⟨[[], [⟨0, 5⟩]], 1⟩) := by
  refine ⟨by decide, by decide⟩

/-- C15, amended: on a table with `bucket_count() > 0`, when `new_node` returns,
`insert_equal_noresize(v)` returns an iterator to the new node, adds exactly that
node and increments `size()` by 1; only the chain of bucket
`hash(key_of(v)) mod bucket_count()` changes: if it holds an entry whose key equals
that of `v`, the new node is linked right after the first such entry, the nodes
before and after keeping their order; otherwise the new node becomes its head. -/
theorem insert_equal_noresize_links_one_node (P : policy K V) (a : allocator)
    (t : hashtable V) (v : V) (hb : 0 < t.bucket_count) (hq : 0 < a.quota) :
    ∃ t' chain, insert_equal_noresize P a t v
        = result.ok ({ fresh := a.fresh + 1, quota := a.quota - 1 }, t') (some a.fresh) ∧
      t'.size = t.size + 1 ∧
      t'.buckets_ = t.buckets_.set (P.hash (P.extract_key v) % t.bucket_count) chain ∧
      (all_nodes t').Perm ({ addr := a.fresh, val := v } :: all_nodes t) ∧
      ((∃ pre cur rest,
          t.buckets_.getD (P.hash (P.extract_key v) % t.bucket_count) [] = pre ++ cur :: rest ∧
          (∀ y ∈ pre, P.key_equal (P.extract_key y.val) (P.extract_key v) = false) ∧
          P.key_equal (P.extract_key cur.val) (P.extract_key v) = true ∧
          chain = pre ++ cur :: { addr := a.fresh, val := v } :: rest) ∨
       ((∀ y ∈ t.buckets_.getD (P.hash (P.extract_key v) % t.bucket_count) [],
          P.key_equal (P.extract_key y.val) (P.extract_key v) = false) ∧
        chain = { addr := a.fresh, val := v }
          :: t.buckets_.getD (P.hash (P.extract_key v) % t.bucket_count) [])) := by
  have hlt : P.hash (P.extract_key v) % t.buckets_.length < t.buckets_.length :=
    Nat.mod_lt _ hb
  unfold hashtable.bucket_count at *
  cases hf : find_in_chain P (P.extract_key v)
      (t.buckets_.getD (P.hash (P.extract_key v) % t.buckets_.length) []) with
  | some cur =>
    obtain ⟨pre, rest, h1, h2, h3, h4⟩ :=
      link_after_at_first_match P v { addr := a.fresh, val := v } _ cur hf
    refine ⟨{ buckets_ := t.buckets_.set (P.hash (P.extract_key v) % t.buckets_.length)
                (link_after P v { addr := a.fresh, val := v }
                  (t.buckets_.getD (P.hash (P.extract_key v) % t.buckets_.length) [])),
              num_elements_ := t.num_elements_ + 1 },
      link_after P v { addr := a.fresh, val := v }
        (t.buckets_.getD (P.hash (P.extract_key v) % t.buckets_.length) []),
      ?_, rfl, rfl, ?_, Or.inl ⟨pre, cur, rest, h1, h2, h3, h4⟩⟩
    · unfold insert_equal_noresize bkt_num
      rw [bkt_num_key_pos P _ _ hb]
      simp only [hf, new_node_pos a v hq]
    · exact perm_flatten_set _ _ _ _ hlt (perm_link_after P v _ _ cur hf)
  | none =>
    refine ⟨{ buckets_ := t.buckets_.set (P.hash (P.extract_key v) % t.buckets_.length)
                ({ addr := a.fresh, val := v }
                  :: t.buckets_.getD (P.hash (P.extract_key v) % t.buckets_.length) []),
              num_elements_ := t.num_elements_ + 1 },
      { addr := a.fresh, val := v }
        :: t.buckets_.getD (P.hash (P.extract_key v) % t.buckets_.length) [],
      ?_, rfl, rfl, ?_, Or.inr ⟨(find_in_chain_none P _ _).mp hf, rfl⟩⟩
    · unfold insert_equal_noresize bkt_num
      rw [bkt_num_key_pos P _ _ hb]
      simp only [hf, new_node_pos a v hq]
    · exact perm_flatten_set _ _ _ _ hlt (List.Perm.refl _)

theorem insert_equal_noresize_links_one_node_witness :
    0 < (⟨[[], [⟨0, 5⟩, ⟨1, 7⟩]], 2⟩ : hashtable Nat).bucket_count ∧
      0 < (⟨2, 4⟩ : allocator).quota ∧
      ∃ t', insert_equal_noresize nat_policy ⟨2, 4⟩ ⟨[[], [⟨0, 5⟩, ⟨1, 7⟩]], 2⟩ 5
        = result.ok (⟨3, 3⟩, t') (some 2) ∧ t'.size = 3 :=
  ⟨by decide, by decide,
   match insert_equal_noresize_links_one_node nat_policy ⟨2, 4⟩
      ⟨[[], [⟨0, 5⟩, ⟨1, 7⟩]], 2⟩ 5 (by decide) (by decide) with
   | ⟨t', _, h, hs, _⟩ => ⟨t', h, hs⟩⟩

/-- C17, the code at the failing input: the table of two buckets whose bucket 0 holds
2 and then 4 is well formed, and `resize(3)` makes it grow to three buckets; at the
head of bucket 0 the loop reaches line 177 and returns nothing, so no new chain, in
reversed or any other order, is built. -/
theorem resize_builds_no_chain :
    well_formed nat_policy ⟨[[⟨0, 2⟩, ⟨1, 4⟩], []], 2⟩ ∧
      next_size nat_policy 3 = 3 ∧
      resize nat_policy ⟨[[⟨0, 2⟩, ⟨1, 4⟩], []], 2⟩ 3 = result.undefined := by
  refine ⟨by decide, by decide, by decide⟩

/-! ## The modulus of the bucket index; the load factor -/

theorem insert_unique_noresize_shape (P : policy K V) (a a' : allocator)
    (t t' : hashtable V) (obj : V) (r : iterator × Bool)
    (h : insert_unique_noresize P a t obj = result.ok (a', t') r) :
    0 < t.buckets_.length ∧ t'.buckets_.length = t.buckets_.length ∧
      t'.num_elements_ ≤ t.num_elements_ + 1 ∧ t.num_elements_ ≤ t'.num_elements_ := by
  unfold insert_unique_noresize at h
  split at h
  · cases h
  · rename_i bucket hb
    have hlt := bkt_num_key_lt P _ _ _ hb
    simp only at h
    split at h
    · cases h
      exact ⟨by omega, rfl, by omega, by omega⟩
    · split at h
      · cases h
      · cases h
        exact ⟨by omega, by simp, by simp, by simp⟩

theorem insert_equal_noresize_shape (P : policy K V) (a a' : allocator)
    (t t' : hashtable V) (obj : V) (r : iterator)
    (h : insert_equal_noresize P a t obj = result.ok (a', t') r) :
    0 < t.buckets_.length ∧ t'.buckets_.length = t.buckets_.length ∧
      t'.num_elements_ ≤ t.num_elements_ + 1 ∧ t.num_elements_ ≤ t'.num_elements_ := by
  unfold insert_equal_noresize at h
  split at h
  · cases h
  · rename_i bucket hb
    have hlt := bkt_num_key_lt P _ _ _ hb
    simp only at h
    split at h
    · split at h
      · cases h
      · cases h
        exact ⟨by omega, by simp, by simp, by simp⟩
    · split at h
      · cases h
      · cases h
        exact ⟨by omega, by simp, by simp, by simp⟩

/-- After a `resize(hint)` that returns, the bucket count is at least `hint` or at
least `next_prime(hint)`. -/
theorem resize_ok_capacity (P : policy K V) (t t' : hashtable V) (hint : Nat)
    (h : resize P t hint = result.ok t' ()) :
    hint ≤ t'.buckets_.length ∨ next_size P hint ≤ t'.buckets_.length := by
  unfold resize at h
  simp only at h
  split at h
  · rename_i h1
    cases h
    exact Or.inl h1
  · split at h
    · rename_i h1 h2
      cases h
      exact Or.inr h2
    · split at h
      · cases h
      · cases h
        right
        simp

theorem insert_unique_shape (P : policy K V) (a a' : allocator)
    (t t' : hashtable V) (obj : V) (r : iterator × Bool)
    (h : insert_unique P a t obj = result.ok (a', t') r) :
    ∃ t1, resize P t (t.num_elements_ + 1) = result.ok t1 () ∧
      insert_unique_noresize P a t1 obj = result.ok (a', t') r := by
  unfold insert_unique at h
  split at h
  · rename_i t1 u hr
    exact ⟨t1, hr, h⟩
  · cases h
  · cases h

theorem insert_equal_shape (P : policy K V) (a a' : allocator)
    (t t' : hashtable V) (obj : V) (r : iterator)
    (h : insert_equal P a t obj = result.ok (a', t') r) :
    ∃ t1, resize P t (t.num_elements_ + 1) = result.ok t1 () ∧
      insert_equal_noresize P a t1 obj = result.ok (a', t') r := by
  unfold insert_equal at h
  split at h
  · rename_i t1 u hr
    exact ⟨t1, hr, h⟩
  · cases h
  · cases h

theorem nat_policy_next_prime_pos (n : Nat) : 0 < nat_policy.next_prime n := by
  simp only [nat_policy, List.find?_cons, List.find?_nil]
  split <;> (try split) <;> (try split) <;> (try split) <;> (try split) <;> (try split) <;>
    simp

theorem load_factor_after_insert (P : policy K V) (max_bucket_count : Nat)
    (hnp : ∀ n, n ≤ max_bucket_count → n ≤ P.next_prime n) (t t1 t' : hashtable V)
    (hr1 : resize P t (t.num_elements_ + 1) = result.ok t1 ())
    (hl : t'.buckets_.length = t1.buckets_.length)
    (hs : t'.num_elements_ ≤ t1.num_elements_ + 1) (hs' : t1.num_elements_ ≤ t'.num_elements_)
    (ih : t.num_elements_ ≤ max_bucket_count → t.num_elements_ ≤ t.buckets_.length)
    (hm : t'.num_elements_ ≤ max_bucket_count) :
    t'.num_elements_ ≤ t'.buckets_.length := by
  have hs1 := size_resize_ok P t t1 _ hr1
  have hcap := resize_ok_capacity P t t1 _ hr1
  have hmono := bucket_count_resize_ok P t t1 _ hr1
  unfold next_size at hcap
  by_cases hlt : t.num_elements_ + 1 ≤ max_bucket_count
  · have := hnp _ hlt
    omega
  · have := ih (by omega)
    omega

theorem load_factor_of_reachable (P : policy K V) (max_bucket_count : Nat)
    (hnp : ∀ n, n ≤ max_bucket_count → n ≤ P.next_prime n) (t : hashtable V)
    (hr : reachable P t) :
    t.num_elements_ ≤ max_bucket_count → t.num_elements_ ≤ t.buckets_.length := by
  induction hr with
  | empty => intro _; simp [empty_table]
  | init n => intro _; simp [initialize_buckets]
  | insert_unique a a' obj r _ h ih =>
    intro hm
    obtain ⟨t1, hr1, hn⟩ := insert_unique_shape P a a' _ _ obj r h
    obtain ⟨_, hl, hs, hs'⟩ := insert_unique_noresize_shape P a a' t1 _ obj r hn
    exact load_factor_after_insert P max_bucket_count hnp _ t1 _ hr1 hl hs hs' ih hm
  | insert_equal a a' obj r _ h ih =>
    intro hm
    obtain ⟨t1, hr1, hn⟩ := insert_equal_shape P a a' _ _ obj r h
    obtain ⟨_, hl, hs, hs'⟩ := insert_equal_noresize_shape P a a' t1 _ obj r hn
    exact load_factor_after_insert P max_bucket_count hnp _ t1 _ hr1 hl hs hs' ih hm
  | resize hint _ h ih =>
    intro hm
    have hs1 := size_resize_ok P _ _ _ h
    have hmono := bucket_count_resize_ok P _ _ _ h
    have := ih (by omega)
    omega
  | clear _ _ => intro _; simp [clear]
  | copy_from a a' _ _ h _ ih =>
    intro hm
    unfold copy_from at h
    split at h
    · rename_i a1 bs hb
      cases h
      have hv := (copy_buckets_done _ _ _ _ hb).1
      have hl := congrArg List.length hv
      simp only [List.length_map] at hl
      simp only at hm ⊢
      have := ih hm
      omega
    · cases h

/-- C19: with `next_prime(n) >= n` for every `n` up to `max_bucket_count()` (the
ceiling `detail::max_size()`, declared on line 12 and defined nowhere, is a
parameter), every table reached from an empty table by calls of `insert_unique`,
`insert_equal`, `resize` and `clear` that return (and of `copy_from` from such
tables) with `size() < max_bucket_count()` has `size() <= bucket_count()`. -/
theorem size_at_most_bucket_count (P : policy K V) (max_bucket_count : Nat)
    (hnp : ∀ n, n ≤ max_bucket_count → n ≤ P.next_prime n) (t : hashtable V)
    (hr : reachable P t) (hs : t.size < max_bucket_count) : t.size ≤ t.bucket_count :=
  load_factor_of_reachable P max_bucket_count hnp t hr (Nat.le_of_lt hs)

theorem size_at_most_bucket_count_witness :
    (∀ n, n ≤ 13 → n ≤ nat_policy.next_prime n) ∧
      reachable nat_policy ⟨[[], [⟨1, 7⟩, ⟨0, 5⟩]], 2⟩ ∧
      (⟨[[], [⟨1, 7⟩, ⟨0, 5⟩]], 2⟩ : hashtable Nat).size < 13 ∧
      (⟨[[], [⟨1, 7⟩, ⟨0, 5⟩]], 2⟩ : hashtable Nat).size
        ≤ (⟨[[], [⟨1, 7⟩, ⟨0, 5⟩]], 2⟩ : hashtable Nat).bucket_count :=
  have h1 : reachable nat_policy ⟨[[], [⟨0, 5⟩]], 1⟩ :=
    reachable.insert_unique ⟨0, 10⟩ ⟨1, 9⟩ 5 (some 0, true) reachable.empty (by decide)
  have hr : reachable nat_policy ⟨[[], [⟨1, 7⟩, ⟨0, 5⟩]], 2⟩ :=
    reachable.insert_equal ⟨1, 9⟩ ⟨2, 8⟩ 7 (some 1) h1 (by decide)
  ⟨by decide, hr, by decide,
   size_at_most_bucket_count nat_policy 13 (by decide) _ hr (by decide)⟩

/-- C20: nothing but the state of the table keeps the modulus of
`hash(key) % bucket_count()` from being zero.  On a table with `bucket_count() == 0`
`find` and `count` compute a modulo by zero.  A table on which `insert_unique` or
`insert_equal` has returned has `bucket_count() > 0`; a `resize` that changed the
bucket count has set it to `next_prime(hint)`, above the old count; and when
`next_prime` returns positive values the `resize(size() + 1)` of an insert leaves a
table with `bucket_count() > 0` for the index of the insert routine.  On every table
with `bucket_count() > 0` the index is defined and below `bucket_count()`, and `find`
and `count` return; `clear` and a returning `resize` keep `bucket_count() > 0`. -/
theorem bucket_index_guarded_by_state (P : policy K V) (t : hashtable V) :
    (t.bucket_count = 0 →
      ∀ k, find P t k = result.undefined ∧ count P t k = result.undefined) ∧
    (∀ a a' t' obj r, insert_unique P a t obj = result.ok (a', t') r → 0 < t'.bucket_count) ∧
    (∀ a a' t' obj r, insert_equal P a t obj = result.ok (a', t') r → 0 < t'.bucket_count) ∧
    (∀ hint t', resize P t hint = result.ok t' () → t'.bucket_count ≠ t.bucket_count →
      t'.bucket_count = P.next_prime hint ∧ t.bucket_count < t'.bucket_count) ∧
    ((∀ n, 0 < P.next_prime n) →
      ∀ t1, resize P t (t.num_elements_ + 1) = result.ok t1 () → 0 < t1.bucket_count) ∧
    (0 < t.bucket_count → ∀ k, ∃ b, bkt_num_key P k t.bucket_count = some b ∧
      b < t.bucket_count ∧ (∃ it, find P t k = result.ok t it) ∧
      ∃ n, count P t k = result.ok t n) ∧
    (0 < t.bucket_count → 0 < (clear t).bucket_count ∧
      ∀ hint t', resize P t hint = result.ok t' () → 0 < t'.bucket_count) := by
  unfold hashtable.bucket_count
  refine ⟨?_, ?_, ?_, ?_, ?_, ?_, ?_⟩
  · intro h0 k
    simp only [find, count, bkt_num_key, h0, if_true, and_self]
  · intro a a' t' obj r h
    obtain ⟨t1, _, hn⟩ := insert_unique_shape P a a' t t' obj r h
    obtain ⟨h1, h2, _⟩ := insert_unique_noresize_shape P a a' t1 t' obj r hn
    omega
  · intro a a' t' obj r h
    obtain ⟨t1, _, hn⟩ := insert_equal_shape P a a' t t' obj r h
    obtain ⟨h1, h2, _⟩ := insert_equal_noresize_shape P a a' t1 t' obj r hn
    omega
  · intro hint t' h hne
    rcases resize_ok P t t' hint h with rfl | ⟨_, hlt, rfl⟩
    · exact absurd rfl hne
    · unfold next_size at hlt
      simp only [List.length_replicate, next_size, true_and]
      exact hlt
  · intro hnp t1 h
    have := hnp (t.num_elements_ + 1)
    rcases resize_ok_capacity P t t1 _ h with h1 | h1
    · omega
    · unfold next_size at h1
      omega
  · intro hb k
    refine ⟨P.hash k % t.buckets_.length, bkt_num_key_pos P k _ hb, Nat.mod_lt _ hb, ?_, ?_⟩
    · exact ⟨_, by unfold find; rw [bkt_num_key_pos P k _ hb]⟩
    · exact ⟨_, by unfold count; rw [bkt_num_key_pos P k _ hb]⟩
  · intro hb
    refine ⟨by simpa [clear] using hb, ?_⟩
    intro hint t' h
    have := bucket_count_resize_ok P t t' hint h
    omega

theorem bucket_index_guarded_by_state_witness :
    (empty_table : hashtable Nat).bucket_count = 0 ∧
      find nat_policy empty_table 5 = result.undefined ∧
      (∀ n, 0 < nat_policy.next_prime n) ∧
      resize nat_policy empty_table 1 = result.ok ⟨[[], []], 0⟩ () ∧
      0 < (⟨[[], []], 0⟩ : hashtable Nat).bucket_count :=
  ⟨rfl,
   ((bucket_index_guarded_by_state nat_policy empty_table).1 rfl 5).1,
   nat_policy_next_prime_pos, by decide,
   (bucket_index_guarded_by_state nat_policy empty_table).2.2.2.2.1
      nat_policy_next_prime_pos ⟨[[], []], 0⟩ (by decide)⟩

/-! ## Unique keys -/

theorem reachable_of_reachable_unique (P : policy K V) (t : hashtable V)
    (h : reachable_unique P t) : reachable P t := by
  induction h with
  | empty => exact reachable.empty
  | insert_unique a a' obj r _ h ih => exact reachable.insert_unique a a' obj r ih h
  | resize hint _ h ih => exact reachable.resize hint ih h
  | clear _ ih => exact reachable.clear ih

theorem all_nodes_of_empty (t : hashtable V) (h : ∀ c ∈ t.buckets_, c = []) :
    all_nodes t = [] := by
  unfold all_nodes
  rw [List.flatten_eq_nil_iff]
  exact h

theorem all_nodes_resize (P : policy K V) (t t' : hashtable V) (hint : Nat)
    (h : resize P t hint = result.ok t' ()) : all_nodes t' = all_nodes t := by
  rcases resize_ok P t t' hint h with rfl | ⟨he, _, rfl⟩
  · rfl
  · rw [all_nodes_of_empty t he]
    apply all_nodes_of_empty
    intro c hc
    exact List.eq_of_mem_replicate hc

theorem unique_keys_insert_unique_noresize (P : policy K V) (hP : lawful P)
    (a a' : allocator) (t t' : hashtable V) (obj : V) (r : iterator × Bool)
    (hp : chains_placed P t) (hu : unique_keys P t)
    (h : insert_unique_noresize P a t obj = result.ok (a', t') r) : unique_keys P t' := by
  unfold insert_unique_noresize at h
  split at h
  · cases h
  · rename_i bucket hb
    have hlt := bkt_num_key_lt P _ _ _ hb
    have heq := bkt_num_key_eq P _ _ _ hb
    simp only at h
    split at h
    · cases h; exact hu
    · rename_i hf
      split at h
      · cases h
      · rename_i a2 tmp hn
        obtain ⟨rfl, -, -⟩ := new_node_some _ _ _ _ hn
        cases h
        have hperm := perm_flatten_set t.buckets_ bucket
          ({ addr := a.fresh, val := obj } :: t.buckets_.getD bucket [])
          { addr := a.fresh, val := obj } hlt (List.Perm.refl _)
        unfold unique_keys all_nodes at hu ⊢
        simp only
        have hsymm : ∀ {x y : node V},
            P.key_equal (P.extract_key x.val) (P.extract_key y.val) = false →
            P.key_equal (P.extract_key y.val) (P.extract_key x.val) = false := by
          intro x y hxy
          by_contra hne
          have := hP.symm _ _ (by simpa using hne)
          rw [hxy] at this
          cases this
        rw [hperm.pairwise_iff hsymm, List.pairwise_cons]
        refine ⟨?_, hu⟩
        intro y hy
        apply hsymm
        by_contra hne
        have he : P.key_equal (P.extract_key y.val) (P.extract_key obj) = true := by
          simpa using hne
        have hmem := mem_bucket_of_key_equal P hP t hp _ y hy he
        unfold bkt_num at hb
        rw [← heq] at hmem
        have := (find_in_chain_none P _ _).mp hf y hmem
        rw [he] at this
        cases this

theorem unique_keys_of_reachable_unique (P : policy K V) (hP : lawful P) (t : hashtable V)
    (h : reachable_unique P t) : unique_keys P t := by
  induction h with
  | empty => simp [unique_keys, all_nodes, empty_table]
  | insert_unique a a' obj r hr h ih =>
    obtain ⟨t1, hr1, hn⟩ := insert_unique_shape P a a' _ _ obj r h
    have hp := chains_placed_of_reachable P _ (reachable_of_reachable_unique P _ hr)
    have hp1 := chains_placed_resize P _ t1 _ hp hr1
    have hu1 : unique_keys P t1 := by
      unfold unique_keys
      rw [all_nodes_resize P _ t1 _ hr1]
      exact ih
    exact unique_keys_insert_unique_noresize P hP a a' t1 _ obj r hp1 hu1 hn
  | resize hint _ h ih =>
    unfold unique_keys
    rw [all_nodes_resize P _ _ _ h]
    exact ih
  | clear _ _ =>
    unfold unique_keys
    rw [all_nodes_of_empty]
    · exact List.Pairwise.nil
    · intro c hc
      simp [clear] at hc
      exact hc.2

theorem countP_le_one_of_pairwise (P : policy K V) (hP : lawful P) (key : K)
    (l : List (node V))
    (h : l.Pairwise
      (fun x y => P.key_equal (P.extract_key x.val) (P.extract_key y.val) = false)) :
    l.countP (fun x => P.key_equal (P.extract_key x.val) key) ≤ 1 := by
  induction l with
  | nil => simp
  | cons x xs ih =>
    rw [List.pairwise_cons] at h
    rw [List.countP_cons]
    by_cases hx : P.key_equal (P.extract_key x.val) key = true
    · have hz : xs.countP (fun y => P.key_equal (P.extract_key y.val) key) = 0 := by
        apply countP_of_all_false
        intro y hy
        by_contra hne
        have hyk : P.key_equal (P.extract_key y.val) key = true := by simpa using hne
        have := hP.trans _ _ _ hx (hP.symm _ _ hyk)
        rw [h.1 y hy] at this
        cases this
      rw [hz, if_pos hx]
    · have := ih h.2
      rw [if_neg hx]
      omega

/-- C18: in every table reached from an empty table by calls of `insert_unique`,
`resize` and `clear` that return (`key_equal` an equivalence relation under which
equal keys have equal hashes), no two stored values have equal keys; so at most one
stored value has a key equal to `k`, and `count(k)`, which returns whenever
`bucket_count() > 0`, is at most 1, for every key `k`. -/
theorem unique_inserts_keep_keys_unique (P : policy K V) (hP : lawful P) (t : hashtable V)
    (hr : reachable_unique P t) :
    (all_nodes t).Pairwise
      (fun x y => P.key_equal (P.extract_key x.val) (P.extract_key y.val) = false) ∧
    ∀ k, (all_nodes t).countP (fun x => P.key_equal (P.extract_key x.val) k) ≤ 1 ∧
      (∀ n, count P t k = result.ok t n → n ≤ 1) ∧
      (0 < t.bucket_count → ∃ n, n ≤ 1 ∧ count P t k = result.ok t n) := by
  have hu := unique_keys_of_reachable_unique P hP t hr
  have hp := chains_placed_of_reachable P t (reachable_of_reachable_unique P t hr)
  refine ⟨hu, ?_⟩
  intro k
  have hle := countP_le_one_of_pairwise P hP k (all_nodes t) hu
  refine ⟨hle, ?_, ?_⟩
  · intro n hn
    by_cases hb : 0 < t.buckets_.length
    · rw [(count_ok P hP t hp hb k).1] at hn
      cases hn
      exact hle
    · have h0 : t.buckets_.length = 0 := by omega
      simp [count, bkt_num_key, h0] at hn
  · intro hb
    exact ⟨_, hle, (count_ok P hP t hp hb k).1⟩

theorem unique_inserts_keep_keys_unique_witness :
    lawful nat_policy ∧ reachable_unique nat_policy ⟨[[⟨0, 0⟩], [⟨1, 1⟩]], 2⟩ ∧
      (all_nodes (⟨[[⟨0, 0⟩], [⟨1, 1⟩]], 2⟩ : hashtable Nat)).Pairwise
        (fun x y => nat_policy.key_equal (nat_policy.extract_key x.val)
          (nat_policy.extract_key y.val) = false) :=
  have h1 : reachable_unique nat_policy ⟨[[⟨0, 0⟩], []], 1⟩ :=
    reachable_unique.insert_unique ⟨0, 8⟩ ⟨1, 7⟩ 0 (some 0, true) reachable_unique.empty
      (by decide)
  have h2 : reachable_unique nat_policy ⟨[[⟨0, 0⟩], [⟨1, 1⟩]], 2⟩ :=
    reachable_unique.insert_unique ⟨1, 7⟩ ⟨2, 6⟩ 1 (some 1, true) h1 (by decide)
  ⟨nat_policy_lawful, h2,
   (unique_inserts_keep_keys_unique nat_policy nat_policy_lawful _ h2).1⟩

/-! ## Runs of equal keys -/

theorem mem_dropWhile_link_after (P : policy K V) (obj : V) (tmp : node V)
    (p : node V → Bool)
    (hp : ∀ z : node V, P.key_equal (P.extract_key z.val) (P.extract_key obj) = true →
      p z = false)
    (l : List (node V)) (w : node V) (hw : w ∈ (link_after P obj tmp l).dropWhile p) :
    w = tmp ∨ w ∈ l.dropWhile p := by
  induction l with
  | nil => simp [link_after] at hw
  | cons z zs ih =>
    unfold link_after at hw
    split at hw
    · rename_i hz
      have hpz : ¬ p z = true := by simp [hp z hz]
      rw [List.dropWhile_cons_of_neg hpz] at hw ⊢
      simp only [List.mem_cons] at hw ⊢
      tauto
    · by_cases hpz : p z = true
      · rw [List.dropWhile_cons_of_pos hpz] at hw ⊢
        exact ih hw
      · rw [List.dropWhile_cons_of_neg hpz] at hw ⊢
        rcases List.mem_cons.mp hw with rfl | hw
        · exact Or.inr (List.mem_cons_self _ _)
        · rcases mem_link_after P obj tmp zs w hw with h | h
          · exact Or.inl h
          · exact Or.inr (List.mem_cons_of_mem _ h)

theorem dropWhile_congr_of_eq (p q : node V → Bool) (l : List (node V))
    (h : ∀ z, p z = q z) : l.dropWhile p = l.dropWhile q := by
  have : p = q := funext h
  rw [this]

theorem key_equal_false_symm (P : policy K V) (hP : lawful P) (k l : K)
    (h : P.key_equal k l = false) : P.key_equal l k = false := by
  by_contra hne
  have := hP.symm _ _ (by simpa using hne)
  rw [h] at this
  cases this

theorem key_equal_congr_left (P : policy K V) (hP : lawful P) (k l : K)
    (h : P.key_equal k l = true) (m : K) : P.key_equal k m = P.key_equal l m := by
  cases hl : P.key_equal l m with
  | true => exact hP.trans _ _ _ h hl
  | false =>
    by_contra hne
    have hk : P.key_equal k m = true := by simpa using hne
    have := hP.trans _ _ _ (hP.symm _ _ h) hk
    rw [hl] at this
    cases this

theorem grouped_link_after (P : policy K V) (hP : lawful P) (obj : V) (tmp : node V)
    (htmp : tmp.val = obj) (l : List (node V)) (hg : grouped P l) :
    grouped P (link_after P obj tmp l) := by
  induction l with
  | nil => simp [link_after, grouped]
  | cons y ys ih =>
    obtain ⟨hg1, hg2⟩ := hg
    unfold link_after
    split
    · rename_i hy
      refine ⟨?_, ?_, hg2⟩
      · have : P.key_equal (P.extract_key y.val) (P.extract_key tmp.val) = true := by
          rw [htmp]; exact hy
        intro w hw
        simp only [List.dropWhile_cons, this, if_true] at hw
        exact hg1 w hw
      · have hc : ∀ z : node V,
            P.key_equal (P.extract_key tmp.val) (P.extract_key z.val)
              = P.key_equal (P.extract_key y.val) (P.extract_key z.val) := by
          intro z
          rw [htmp]
          exact key_equal_congr_left P hP _ _ (hP.symm _ _ hy) _
        intro w hw
        rw [dropWhile_congr_of_eq _ _ ys hc] at hw
        rw [hc w]
        exact hg1 w hw
    · rename_i hy
      refine ⟨?_, ih hg2⟩
      intro w hw
      have hp : ∀ z : node V, P.key_equal (P.extract_key z.val) (P.extract_key obj) = true →
          P.key_equal (P.extract_key y.val) (P.extract_key z.val) = false := by
        intro z hz
        by_contra hne
        have hyz : P.key_equal (P.extract_key y.val) (P.extract_key z.val) = true := by
          simpa using hne
        exact hy (hP.trans _ _ _ hyz hz)
      rcases mem_dropWhile_link_after P obj tmp _ hp ys w hw with rfl | hw
      · rw [htmp]
        simpa using hy
      · exact hg1 w hw

theorem grouped_cons_of_no_match (P : policy K V) (hP : lawful P) (obj : V) (tmp : node V)
    (htmp : tmp.val = obj) (l : List (node V))
    (hf : find_in_chain P (P.extract_key obj) l = none) (hg : grouped P l) :
    grouped P (tmp :: l) := by
  refine ⟨?_, hg⟩
  intro w hw
  have hwl : w ∈ l := (List.dropWhile_sublist _).subset hw
  rw [htmp]
  exact key_equal_false_symm P hP _ _ ((find_in_chain_none P _ _).mp hf w hwl)

theorem mem_dropWhile_after (p : node V → Bool) (b : List (node V)) (y : node V)
    (c : List (node V)) (z : node V) (hz : z ∈ b) (hpz : p z = false) :
    y ∈ (b ++ y :: c).dropWhile p := by
  induction b with
  | nil => simp at hz
  | cons z0 b' ih =>
    by_cases h0 : p z0 = true
    · rw [List.cons_append, List.dropWhile_cons_of_pos h0]
      rcases List.mem_cons.mp hz with rfl | hz
      · rw [h0] at hpz; cases hpz
      · exact ih hz
    · rw [List.cons_append, List.dropWhile_cons_of_neg h0]
      simp

/-- In a grouped chain no node with a different key lies between two nodes with
equal keys. -/
theorem between_of_grouped (P : policy K V) (l : List (node V)) (hg : grouped P l) :
    ∀ (a : List (node V)) (x : node V) (b : List (node V)) (y : node V) (c : List (node V)),
      l = a ++ x :: (b ++ y :: c) →
      P.key_equal (P.extract_key x.val) (P.extract_key y.val) = true →
      ∀ z ∈ b, P.key_equal (P.extract_key x.val) (P.extract_key z.val) = true := by
  induction l with
  | nil => intro a x b y c h; simp at h
  | cons l0 ls ih =>
    intro a x b y c h hxy z hz
    obtain ⟨hg1, hg2⟩ := hg
    cases a with
    | nil =>
      simp only [List.nil_append, List.cons.injEq] at h
      obtain ⟨rfl, rfl⟩ := h
      by_contra hne
      have hf : P.key_equal (P.extract_key l0.val) (P.extract_key z.val) = false := by
        simpa using hne
      have := hg1 y (mem_dropWhile_after _ b y c z hz hf)
      rw [hxy] at this
      cases this
    | cons a0 a' =>
      simp only [List.cons_append, List.cons.injEq] at h
      exact ih hg2 a' x b y c h.2 hxy z hz

theorem insert_equal_noresize_chain (P : policy K V) (a a' : allocator)
    (t t' : hashtable V) (obj : V) (r : iterator)
    (h : insert_equal_noresize P a t obj = result.ok (a', t') r) :
    ∃ bucket tmp, tmp.val = obj ∧
      (t'.buckets_ = t.buckets_.set bucket (link_after P obj tmp (t.buckets_.getD bucket [])) ∨
       (find_in_chain P (P.extract_key obj) (t.buckets_.getD bucket []) = none ∧
        t'.buckets_ = t.buckets_.set bucket (tmp :: t.buckets_.getD bucket []))) := by
  unfold insert_equal_noresize at h
  split at h
  · cases h
  · rename_i bucket hb
    simp only at h
    split at h
    · split at h
      · cases h
      · rename_i a2 tmp hn
        obtain ⟨rfl, -, -⟩ := new_node_some _ _ _ _ hn
        cases h
        exact ⟨bucket, _, rfl, Or.inl rfl⟩
    · rename_i hf
      split at h
      · cases h
      · rename_i a2 tmp hn
        obtain ⟨rfl, -, -⟩ := new_node_some _ _ _ _ hn
        cases h
        exact ⟨bucket, _, rfl, Or.inr ⟨hf, rfl⟩⟩

theorem grouped_getD (P : policy K V) (l : List (List (node V)))
    (h : ∀ c ∈ l, grouped P c) (i : Nat) : grouped P (l.getD i []) := by
  rw [List.getD_eq_getElem?_getD]
  cases hg : l[i]? with
  | none => exact True.intro
  | some c => exact h c (List.getElem?_mem hg)

theorem reachable_of_reachable_equal (P : policy K V) (t : hashtable V)
    (h : reachable_equal P t) : reachable P t := by
  induction h with
  | empty => exact reachable.empty
  | insert_equal a a' obj r _ h ih => exact reachable.insert_equal a a' obj r ih h
  | resize hint _ h ih => exact reachable.resize hint ih h

theorem grouped_resize (P : policy K V) (t t' : hashtable V) (hint : Nat)
    (hg : ∀ c ∈ t.buckets_, grouped P c) (h : resize P t hint = result.ok t' ()) :
    ∀ c ∈ t'.buckets_, grouped P c := by
  rcases resize_ok P t t' hint h with rfl | ⟨_, _, rfl⟩
  · exact hg
  · intro c hc
    rw [List.eq_of_mem_replicate hc]
    exact True.intro

theorem grouped_of_reachable_equal (P : policy K V) (hP : lawful P) (t : hashtable V)
    (h : reachable_equal P t) : ∀ c ∈ t.buckets_, grouped P c := by
  induction h with
  | empty => intro c hc; simp [empty_table] at hc
  | insert_equal a a' obj r _ h ih =>
    obtain ⟨t1, hr1, hn⟩ := insert_equal_shape P a a' _ _ obj r h
    have hg1 := grouped_resize P _ t1 _ ih hr1
    obtain ⟨bucket, tmp, htmp, hc | ⟨hf, hc⟩⟩ := insert_equal_noresize_chain P a a' t1 _ obj r hn
    · intro c hcm
      rw [hc] at hcm
      rcases List.mem_or_eq_of_mem_set hcm with hcm | rfl
      · exact hg1 c hcm
      · exact grouped_link_after P hP obj tmp htmp _ (grouped_getD P _ hg1 bucket)
    · intro c hcm
      rw [hc] at hcm
      rcases List.mem_or_eq_of_mem_set hcm with hcm | rfl
      · exact hg1 c hcm
      · exact grouped_cons_of_no_match P hP obj tmp htmp _ hf (grouped_getD P _ hg1 bucket)
  | resize hint _ h ih => exact grouped_resize P _ _ hint ih h

theorem single_prime_policy_lawful : lawful single_prime_policy where
  refl := by intro k; simp [single_prime_policy]
  symm := by intro k l h; simp [single_prime_policy] at h ⊢; exact h.symm
  trans := by intro k l m h1 h2; simp [single_prime_policy] at h1 h2 ⊢; exact h1.trans h2
  hash_eq := by intro k l h; simp [single_prime_policy] at h ⊢; exact h

/-- In every table reached from an empty table by calls of `insert_equal` and
`resize` that return (`key_equal` an equivalence relation under which equal keys have
equal hashes), the nodes with equal keys form one run of one chain: whenever a chain
reads `a ++ x :: b ++ y :: c` with the keys of `x` and `y` equal, every node of `b`
has that key too, and two nodes with equal keys are never in different buckets. -/
theorem equal_keys_form_one_run (P : policy K V) (hP : lawful P) (t : hashtable V)
    (hr : reachable_equal P t) :
    (∀ chain ∈ t.buckets_, ∀ (a : List (node V)) (x : node V) (b : List (node V))
      (y : node V) (c : List (node V)), chain = a ++ x :: (b ++ y :: c) →
      P.key_equal (P.extract_key x.val) (P.extract_key y.val) = true →
      ∀ z ∈ b, P.key_equal (P.extract_key x.val) (P.extract_key z.val) = true ∧
        P.key_equal (P.extract_key z.val) (P.extract_key y.val) = true) ∧
    (∀ i j x y, x ∈ t.buckets_.getD i [] → y ∈ t.buckets_.getD j [] →
      P.key_equal (P.extract_key x.val) (P.extract_key y.val) = true → i = j) := by
  constructor
  · intro chain hc a x b y c hdec hxy z hz
    have hg := grouped_of_reachable_equal P hP t hr chain hc
    have hxz := between_of_grouped P chain hg a x b y c hdec hxy z hz
    exact ⟨hxz, hP.trans _ _ _ (hP.symm _ _ hxz) hxy⟩
  · intro i j x y hx hy hxy
    have hp := (chains_placed_iff P t).mp
      (chains_placed_of_reachable P t (reachable_of_reachable_equal P t hr))
    have h1 := hp i x hx
    have h2 := hp j y hy
    rw [hP.hash_eq _ _ hxy] at h1
    omega

theorem equal_keys_form_one_run_witness :
    lawful single_prime_policy ∧
      reachable_equal single_prime_policy
        ⟨[[], [], [], [⟨0, 3⟩, ⟨2, 3⟩, ⟨1, 3⟩], [], [], []], 3⟩ ∧
      single_prime_policy.key_equal (single_prime_policy.extract_key (⟨0, 3⟩ : node Nat).val)
        (single_prime_policy.extract_key (⟨2, 3⟩ : node Nat).val) = true :=
  have h1 : reachable_equal single_prime_policy ⟨[[], [], [], [⟨0, 3⟩], [], [], []], 1⟩ :=
    reachable_equal.insert_equal ⟨0, 8⟩ ⟨1, 7⟩ 3 (some 0) reachable_equal.empty (by decide)
  have h2 : reachable_equal single_prime_policy
      ⟨[[], [], [], [⟨0, 3⟩, ⟨1, 3⟩], [], [], []], 2⟩ :=
    reachable_equal.insert_equal ⟨1, 7⟩ ⟨2, 6⟩ 3 (some 1) h1 (by decide)
  have h3 : reachable_equal single_prime_policy
      ⟨[[], [], [], [⟨0, 3⟩, ⟨2, 3⟩, ⟨1, 3⟩], [], [], []], 3⟩ :=
    reachable_equal.insert_equal ⟨2, 6⟩ ⟨3, 5⟩ 3 (some 2) h2 (by decide)
  ⟨single_prime_policy_lawful, h3,
   ((equal_keys_form_one_run single_prime_policy single_prime_policy_lawful _ h3).1
      [⟨0, 3⟩, ⟨2, 3⟩, ⟨1, 3⟩] (by decide) [] ⟨0, 3⟩ [⟨2, 3⟩] ⟨1, 3⟩ [] rfl (by decide)
      ⟨2, 3⟩ (by decide)).1⟩

/-- Every `insert_unique` of a present key that returns has returned `false` with an
iterator to a stored entry with that key, and left table and allocator as they
were. -/
theorem insert_unique_of_present_key_returns (P : policy K V) (hP : lawful P)
    (a a' : allocator) (t t' : hashtable V) (hr : reachable P t) (v : V) (x : node V)
    (hx : x ∈ all_nodes t)
    (he : P.key_equal (P.extract_key x.val) (P.extract_key v) = true) (r : iterator × Bool)
    (h : insert_unique P a t v = result.ok (a', t') r) :
    a' = a ∧ t' = t ∧ ∃ y, y ∈ all_nodes t ∧
      P.key_equal (P.extract_key y.val) (P.extract_key v) = true ∧
      r = (some y.addr, false) := by
  obtain ⟨t1, hr1, hn⟩ := insert_unique_shape P a a' t t' v r h
  have ht1 : t1 = t := by
    rcases resize_ok P t t1 _ hr1 with h1 | ⟨he0, _, _⟩
    · exact h1
    · rw [all_nodes_of_empty t he0] at hx
      simp at hx
  subst ht1
  obtain ⟨y, hy, hye, hi⟩ :=
    insert_unique_noresize_present P hP a t1 (chains_placed_of_reachable P t1 hr) v x hx he
  rw [hi] at hn
  cases hn
  exact ⟨rfl, rfl, y, hy, hye, rfl⟩

/-- C16, the code at the failing input: two `insert_equal(5)` calls on the empty table
leave two buckets with the run 5, 5 in bucket 1; `resize(3)`, which has to rebuild the
chains for three buckets, reaches line 177 at the head of that run and returns
nothing, so there is no rebuilt chain in which the run could still be contiguous. -/
theorem resize_rebuilds_no_run :
    reachable_equal nat_policy ⟨[[], [⟨0, 5⟩, ⟨1, 5⟩]], 2⟩ ∧
      resize nat_policy ⟨[[], [⟨0, 5⟩, ⟨1, 5⟩]], 2⟩ 3 = result.undefined := by
  have h1 : reachable_equal nat_policy ⟨[[], [⟨0, 5⟩]], 1⟩ :=
    reachable_equal.insert_equal ⟨0, 8⟩ ⟨1, 7⟩ 5 (some 0) reachable_equal.empty (by decide)
  have h2 : reachable_equal nat_policy ⟨[[], [⟨0, 5⟩, ⟨1, 5⟩]], 2⟩ :=
    reachable_equal.insert_equal ⟨1, 7⟩ ⟨2, 6⟩ 5 (some 1) h1 (by decide)
  exact ⟨h2, by decide⟩

end kola
